import Mathlib

/-!
# ead-stream-parser: the event-to-tree reducer of `gen-json.go`

A shallow embedding of `src/gen-json.go`, and of the `Stack` of `src/main.go` in the
namespace `MainGo`.

* A Go `string` is modelled by a Lean `String` (a sequence of code points); the
  character data handed over by `encoding/xml` is valid UTF-8, so nothing is lost.
* `*EADNode` pointers are modelled by values.  In every state the loop of `main` can
  reach, a node is referenced from exactly one place (one stack slot, one `Children`
  slice or `Tree`), so a write through a pointer obtained from `Peek` is the
  replacement of the top stack entry.  A `nil` pointer is `none`.
* `log.Fatalf` ends the process; it is modelled by `Except.error`.
* The token stream of the decoder is a `List Token`; the end of the list is the point
  where `d.Token()` returns a `nil` token and the loop breaks.
-/

namespace GenJson

/-! ## Strings: `strings.TrimSpace` and the regular expression of `cleanupWhitespace` -/

/-- Go's `unicode.IsSpace`: the Latin-1 cases of its `switch`, and the `White_Space`
range table above Latin-1. -/
def isSpace (c : Char) : Bool :=
  let r := c.toNat
  if r ≤ 0xFF then
    r = 0x09 || r = 0x0A || r = 0x0B || r = 0x0C || r = 0x0D || r = 0x20 || r = 0x85 || r = 0xA0
  else
    r = 0x1680 || (0x2000 ≤ r && r ≤ 0x200A) || r = 0x2028 || r = 0x2029 || r = 0x202F
      || r = 0x205F || r = 0x3000

/-- The characters the alternatives of the pattern `\r+|\n+|\t+|( )+` start with. -/
def isReSpace (c : Char) : Bool :=
  c = '\r' || c = '\n' || c = '\t' || c = ' '

/-- One call `re.ReplaceAllString(s, " ")` for the pattern `\r+|\n+|\t+|( )+`, on the
characters of `s`.  Every alternative is a greedy repetition of ONE character, so a
match is a maximal run of one and the same character among `\r`, `\n`, `\t`, space;
matches are taken leftmost and do not overlap, and each is replaced by one space.
`run` is the character of the match that is being consumed (`none` outside a match):
a pattern character that continues the match is dropped, one that starts a match
emits the replacement, any other character is copied. -/
def replaceRuns (run : Option Char) : List Char → List Char
  | [] => []
  | c :: cs =>
    if isReSpace c then
      if run = some c then replaceRuns (some c) cs else ' ' :: replaceRuns (some c) cs
    else c :: replaceRuns none cs

/-- The call `re.ReplaceAllString(s, " ")` of `cleanupWhitespace`. -/
def ReplaceAllString (s : String) : String := ⟨replaceRuns none s.data⟩

/-- Go's `strings.TrimSpace` on characters: `TrimRightFunc(TrimLeftFunc(s, IsSpace), IsSpace)`. -/
def trimChars (s : List Char) : List Char :=
  (s.dropWhile isSpace).rdropWhile isSpace

/-- Go's `strings.TrimSpace`. -/
def TrimSpace (s : String) : String := ⟨trimChars s.data⟩

/-- The function `cleanupWhitespace` of gen-json.go: two replacement passes, then
`strings.TrimSpace`. -/
def cleanupWhitespace (s : String) : String :=
  let result := ReplaceAllString s
  let result := ReplaceAllString result
  let result := TrimSpace result
  result

/-- The type `FilteredString` of gen-json.go is a string. -/
abbrev FilteredString := String

/-- The method `FilteredString.String`: the clean-up applied when the value is read
(`MarshalJSON` marshals this string). -/
def FilteredString.String (s : FilteredString) : String := cleanupWhitespace s

/-! ## Nodes, the stack and the reduction state -/

/-- The type `Attr` of gen-json.go, `map[string]string`, as an association list that
holds each key once. -/
abbrev Attr := List (String × String)

/-- The assignment `m[k] = v` on a Go map: the value of an existing key is overwritten,
a new key is added. -/
def Attr.set : Attr → String → String → Attr
  | [], k, v => [(k, v)]
  | (k', v') :: m, k, v => if k' = k then (k, v) :: m else (k', v') :: Attr.set m k v

/-- The struct `EADNode` of gen-json.go. -/
inductive EADNode where
  | mk (Name : String) (Attr : Attr) (Value : FilteredString) (Children : List EADNode)

/-- Field `Name`. -/
def EADNode.Name : EADNode → String
  | .mk n _ _ _ => n

/-- Field `Attr`. -/
def EADNode.Attr : EADNode → Attr
  | .mk _ a _ _ => a

/-- Field `Value`. -/
def EADNode.Value : EADNode → FilteredString
  | .mk _ _ v _ => v

/-- Field `Children`. -/
def EADNode.Children : EADNode → List EADNode
  | .mk _ _ _ cs => cs

/-- The write `en.Value = v`. -/
def EADNode.setValue (en : EADNode) (v : FilteredString) : EADNode :=
  .mk en.Name en.Attr v en.Children

/-- The write `parent.Children = append(parent.Children, en)`. -/
def EADNode.appendChild (parent en : EADNode) : EADNode :=
  .mk parent.Name parent.Attr parent.Value (parent.Children ++ [en])

/-- The text a node is rendered with: the field is tagged `json:"value,omitempty"`, so
an empty `Value` is left out, and any other is marshalled through
`FilteredString.MarshalJSON`. -/
def EADNode.text? (en : EADNode) : Option String :=
  if en.Value.length = 0 then none else some (FilteredString.String en.Value)

/-- An attribute of an `xml.StartElement`; of its `Name` only `Local` is read. -/
structure XmlAttr where
  Local : String
  Value : String

/-- The tokens of `encoding/xml`; of an element name only `Local` is read. -/
inductive Token where
  | StartElement (Local : String) (Attr : List XmlAttr)
  | EndElement (Local : String)
  | CharData (data : String)
  | Comment (data : String)
  | ProcInst (target : String) (inst : String)
  | Directive (data : String)

/-- The struct `Stack` of gen-json.go: the slice `S`, bottom first, top last. -/
structure Stack where
  S : List EADNode

/-- The method `Stack.Peek` of gen-json.go: `nil` on an empty slice, else the last entry. -/
def Stack.Peek (s : Stack) : Option EADNode :=
  if s.S.length = 0 then none else s.S.getLast?

/-- The method `Stack.Push`. -/
def Stack.Push (s : Stack) (val : EADNode) : Stack :=
  ⟨s.S ++ [val]⟩

/-- The method `Stack.Pop` of gen-json.go: the returned pointer and the stack afterwards. -/
def Stack.Pop (s : Stack) : Option EADNode × Stack :=
  if s.S.length = 0 then (none, s) else (s.S.getLast?, ⟨s.S.dropLast⟩)

/-- The method `Stack.Len`. -/
def Stack.Len (s : Stack) : Nat := s.S.length

/-- A write through the pointer returned by `Peek`: the top entry becomes `en`. -/
def Stack.setTop (s : Stack) (en : EADNode) : Stack :=
  ⟨s.S.dropLast ++ [en]⟩

/-- The struct `EADState`; `Errors` is declared and never written. -/
structure EADState where
  Stack : Stack
  Tree : Option EADNode
  Errors : List String

/-- The state `new(EADState)`. -/
def EADState.new : EADState := ⟨⟨[]⟩, none, []⟩

/-- The function `NewEADNode`: the name, and the attribute map filled in list order. -/
def NewEADNode (name : String) (attrs : List XmlAttr) : EADNode :=
  .mk name (attrs.foldl (fun m a => Attr.set m a.Local a.Value) []) "" []

/-- The two `log.Fatalf` calls of the loop, with the values they print. -/
inductive Fatal where
  | inCharData (el : String) (str : String)
  | inEndElement (el : String)

/-- The `sort.Strings(keys)` call over the keys of the attribute map. -/
def sortedKeys (m : Attr) : List String :=
  (m.map Prod.fst).insertionSort (fun a b => a ≤ b)

/-- One turn of the loop of `main` in gen-json.go on a token: the `switch` on its type. -/
def step (eadState : EADState) : Token → Except Fatal EADState
  | .StartElement name attrs =>
    let en := NewEADNode name attrs
    let _keys := sortedKeys en.Attr
    .ok { eadState with Stack := eadState.Stack.Push en }
  | .CharData el =>
    let str := TrimSpace el
    if str.length ≠ 0 then
      match eadState.Stack.Peek with
      | none => .error (.inCharData el str)
      | some en => .ok { eadState with Stack := eadState.Stack.setTop (en.setValue str) }
    else .ok eadState
  | .EndElement name =>
    match eadState.Stack.Pop with
    | (none, _) => .error (.inEndElement name)
    | (some en, stack) =>
      match stack.Peek with
      | none => .ok { eadState with Stack := stack, Tree := some en }
      | some parent =>
        .ok { eadState with Stack := stack.setTop (parent.appendChild en) }
  | _ => .ok eadState

/-- The loop of `main` from a given state over the tokens up to the end of the stream. -/
def runFrom (eadState : EADState) : List Token → Except Fatal EADState
  | [] => .ok eadState
  | tok :: toks =>
    match step eadState tok with
    | .error e => .error e
    | .ok st => runFrom st toks

/-- The loop of `main` from `new(EADState)`. -/
def run (toks : List Token) : Except Fatal EADState := runFrom EADState.new toks

/-- The function `main` of gen-json.go after the file is opened: the loop, then the
value handed to `json.MarshalIndent`, which is `eadState.Tree`. -/
def main (toks : List Token) : Except Fatal (Option EADNode) :=
  match run toks with
  | .error e => .error e
  | .ok st => .ok st.Tree

/-! ## Trees as event lists -/

/-- The attribute list of the `Open` event of a node: its attributes in order. -/
def Attr.toXml (a : Attr) : List XmlAttr :=
  a.map (fun kv => ⟨kv.1, kv.2⟩)

mutual
/-- The event list of a tree: `Open(name, attrs)`, then `Text(text)` if the node has
text, then the event lists of the children in order, then `Close`. -/
def flatten : EADNode → List Token
  | .mk n a v cs =>
    Token.StartElement n a.toXml
      :: ((if v = "" then [] else [Token.CharData v]) ++ flattenList cs ++ [Token.EndElement n])
/-- The event lists of a list of trees, one after the other. -/
def flattenList : List EADNode → List Token
  | [] => []
  | c :: cs => flatten c ++ flattenList cs
end

mutual
/-- The trees of the round trip: at every node the attribute keys are distinct and the
text is absent, or not blank and already trimmed. -/
def WellFormed : EADNode → Prop
  | .mk _ a v cs =>
    (a.map Prod.fst).Nodup ∧ (v = "" ∨ (TrimSpace v ≠ "" ∧ TrimSpace v = v))
      ∧ WellFormedList cs
/-- Every tree of the list is well formed. -/
def WellFormedList : List EADNode → Prop
  | [] => True
  | c :: cs => WellFormed c ∧ WellFormedList cs
end

/-- The writes `p.Children = append(p.Children, c)` for the nodes `c` of a list in order. -/
def EADNode.appendChildren (p : EADNode) (cs : List EADNode) : EADNode :=
  .mk p.Name p.Attr p.Value (p.Children ++ cs)

/-! ## Reference definitions -/

/-- The collapse of the specification: every maximal run of carriage returns, newlines,
tabs or spaces, mixed or not, is replaced by a single space.  `inRun` says that the
character before belongs to such a run, whose space has been written already. -/
def collapseRuns (inRun : Bool) : List Char → List Char
  | [] => []
  | c :: cs =>
    if isReSpace c then
      if inRun then collapseRuns true cs else ' ' :: collapseRuns true cs
    else c :: collapseRuns false cs

/-- Removal of the leading and trailing space characters, U+0020 only. -/
def trimSpaceChar (s : List Char) : List Char :=
  (s.dropWhile (fun c => c = ' ')).rdropWhile (fun c => c = ' ')

/-- The normalisation as the specification words it: the mixed-run collapse, then the
leading and trailing space removed. -/
def specNormalize (s : String) : String := ⟨trimSpaceChar (collapseRuns false s.data)⟩

/-- The same reference with the trim of `strings.TrimSpace`, which removes every
leading and trailing character of `unicode.IsSpace`. -/
def specNormalizeTrimSpace (s : String) : String := TrimSpace ⟨collapseRuns false s.data⟩

/-- A list the collapse has nothing to do on: it has no `\r`, `\n`, `\t`, no two
adjacent spaces, and no space at its head when `b` is set. -/
def Collapsed (b : Bool) : List Char → Prop
  | [] => True
  | c :: cs =>
    if isReSpace c then c = ' ' ∧ b = false ∧ Collapsed true cs else Collapsed false cs

/-- What reaches an element between its `Open` and its `Close` while it is the top of
the stack: a text event, or the events of a whole child element. -/
inductive Item where
  | text (raw : String)
  | child (t : EADNode)

/-- The events of an item. -/
def Item.tokens : Item → List Token
  | .text raw => [Token.CharData raw]
  | .child t => flatten t

/-- The events of a list of items. -/
def bodyTokens : List Item → List Token
  | [] => []
  | i :: is => i.tokens ++ bodyTokens is

/-- The text events among the items, in order. -/
def itemTexts : List Item → List String
  | [] => []
  | .text raw :: is => raw :: itemTexts is
  | .child _ :: is => itemTexts is

/-- The children among the items, in order. -/
def itemChildren : List Item → List EADNode
  | [] => []
  | .text _ :: is => itemChildren is
  | .child t :: is => t :: itemChildren is

/-- Every child among the items is a tree of the round trip. -/
def ItemsWellFormed : List Item → Prop
  | [] => True
  | .text _ :: is => ItemsWellFormed is
  | .child t :: is => WellFormed t ∧ ItemsWellFormed is

/-- The last text of the list that is not blank. -/
def lastNonBlank (ts : List String) : Option String :=
  (ts.filter (fun t => decide (TrimSpace t ≠ ""))).getLast?

/-- The stored text after the text events `ts`: the trimmed last one that is not blank,
and the text before when all are blank. -/
def textAfter (v : String) (ts : List String) : String :=
  match lastNonBlank ts with
  | none => v
  | some t => TrimSpace t

/-- The token is a `StartElement`. -/
def Token.isStart : Token → Bool
  | .StartElement _ _ => true
  | _ => false

/-- The token is an `EndElement`. -/
def Token.isEnd : Token → Bool
  | .EndElement _ => true
  | _ => false

/-- The number of `StartElement` tokens of a list. -/
def opens (toks : List Token) : Nat := toks.countP Token.isStart

/-- The number of `EndElement` tokens of a list. -/
def closes (toks : List Token) : Nat := toks.countP Token.isEnd

/-- A root has been assigned or an element is open. -/
def Rooted (st : EADState) : Prop := st.Tree ≠ none ∨ st.Stack.S ≠ []

/-! ## Definitions for the stacks, the attribute map and the invariants -/

/-- The map read `m[k]`, with `none` for a missing key. -/
def Attr.get? (m : Attr) (k : String) : Option String := m.lookup k

/-- The keys of the map, as `for k := range en.Attr` visits them. -/
def Attr.keys (m : Attr) : List String := m.map Prod.fst

/-- Modelled from the spec: the component that renders the attributes of a node is
not under `src/` (gen-json.go hands the tree to `json.MarshalIndent` of `encoding/json`;
the slice sorted in the `StartElement` case is not read again).  As the specification
words it, the keys are sorted lexicographically at render time: the rendering lists
each key of the sorted key view with the value the map holds for it. -/
def renderAttr (m : Attr) : List (String × Option String) :=
  (sortedKeys m).map (fun k => (k, Attr.get? m k))

/-- The pushes `Push(v1)`, ..., `Push(vn)` in this order. -/
def Stack.pushAll (s : Stack) (vs : List EADNode) : Stack := vs.foldl Stack.Push s

/-- The results of `n` calls of `Pop` in a row, and the stack afterwards. -/
def Stack.popN : Nat → Stack → List (Option EADNode) × Stack
  | 0, s => ([], s)
  | n + 1, s => ((s.Pop).1 :: (Stack.popN n (s.Pop).2).1, (Stack.popN n (s.Pop).2).2)

/-- The tokens that look at the stack and end the process when it is empty: a `Close`,
and a text that is not blank. -/
def Token.needsElement : Token → Bool
  | .EndElement _ => true
  | .CharData el => decide (TrimSpace el ≠ "")
  | _ => false

/-- A stored `Value` is empty, or is rendered as a non-empty string that the
normalisation leaves alone. -/
def ValueOK (v : FilteredString) : Prop :=
  v = "" ∨ (FilteredString.String v ≠ ""
    ∧ cleanupWhitespace (FilteredString.String v) = FilteredString.String v)

mutual
/-- Every `Value` of the tree is `ValueOK`. -/
def ValuesOK : EADNode → Prop
  | .mk _ _ v cs => ValueOK v ∧ ValuesOKList cs
/-- Every `Value` of the trees of the list is `ValueOK`. -/
def ValuesOKList : List EADNode → Prop
  | [] => True
  | c :: cs => ValuesOK c ∧ ValuesOKList cs
end

/-- Every `Value` stored in the state, on the stack or under `Tree`, is `ValueOK`. -/
def StateOK (st : EADState) : Prop :=
  ValuesOKList st.Stack.S ∧ ∀ t, st.Tree = some t → ValuesOK t

/-- The length `len(s)` of a Go string: its number of bytes in UTF-8. -/
def byteLen (l : List Char) : Nat := (l.map Char.utf8Size).sum

end GenJson

/-! ## The stack of `main.go` -/

namespace MainGo

/-- The type `Attrs` of main.go. -/
abbrev Attrs := List (String × String)

/-- The struct `EADNode` of main.go. -/
inductive EADNode where
  | mk (Name : String) (Attrs : Attrs) (Value : String) (Children : List EADNode)

/-- The struct `Stack` of main.go: the slice `S`, bottom first, top last. -/
structure Stack where
  S : List EADNode

/-- The method `Stack.Peek` of main.go: the pointer and the error it returns, the error
`fmt.Errorf("Stack is empty")` being its message. -/
def Stack.Peek (s : Stack) : Option EADNode × Option String :=
  if s.S.length = 0 then (none, some "Stack is empty") else (s.S.getLast?, none)

/-- The method `Stack.Push` of main.go. -/
def Stack.Push (s : Stack) (val : EADNode) : Stack :=
  ⟨s.S ++ [val]⟩

/-- The method `Stack.Pop` of main.go: the pointer and the error it returns, and the
stack afterwards. -/
def Stack.Pop (s : Stack) : Option EADNode × Option String × Stack :=
  if s.S.length = 0 then (none, some "Stack is empty", s)
  else (s.S.getLast?, none, ⟨s.S.dropLast⟩)

/-- The method `Stack.Len` of main.go. -/
def Stack.Len (s : Stack) : Nat := s.S.length

/-- The pushes `Push(v1)`, ..., `Push(vn)` in this order. -/
def Stack.pushAll (s : Stack) (vs : List EADNode) : Stack := vs.foldl Stack.Push s

/-- The results of `n` calls of `Pop` in a row, and the stack afterwards. -/
def Stack.popN : Nat → Stack → List (Option EADNode × Option String) × Stack
  | 0, s => ([], s)
  | n + 1, s =>
    (((s.Pop).1, (s.Pop).2.1) :: (Stack.popN n (s.Pop).2.2).1, (Stack.popN n (s.Pop).2.2).2)

end MainGo

namespace GenJson

/-! # Lemmas -/

theorem isReSpace_space : isReSpace ' ' = true := by decide

theorem isReSpace_iff (c : Char) :
    isReSpace c = true ↔ c = '\r' ∨ c = '\n' ∨ c = '\t' ∨ c = ' ' := by
  simp [isReSpace, or_assoc]

theorem isSpace_of_isReSpace {c : Char} (h : isReSpace c = true) : isSpace c = true := by
  rcases (isReSpace_iff c).1 h with h | h | h | h <;> subst h <;> decide

theorem collapseRuns_replaceRuns (s : List Char) :
    ∀ (b : Bool) (q : Option Char), (q ≠ none → b = true) →
      collapseRuns b (replaceRuns q s) = collapseRuns b s := by
  induction s with
  | nil => intros; rfl
  | cons c cs ih =>
    intro b q h
    by_cases hc : isReSpace c = true
    · by_cases hq : q = some c
      · have hb : b = true := h (by simp [hq])
        subst hb
        simp [replaceRuns, collapseRuns, hc, hq, ih true (some c) (fun _ => rfl)]
      · cases b <;>
          simp [replaceRuns, collapseRuns, hc, hq, isReSpace_space,
            ih true (some c) (fun _ => rfl)]
    · simp [replaceRuns, collapseRuns, hc, ih false none (by simp)]

theorem mem_replaceRuns_isReSpace (s : List Char) :
    ∀ (q : Option Char) (c : Char), c ∈ replaceRuns q s → isReSpace c = true → c = ' ' := by
  induction s with
  | nil => intro q c h; simp [replaceRuns] at h
  | cons d ds ih =>
    intro q c h hc
    by_cases hd : isReSpace d = true
    · by_cases hq : q = some d
      · simp [replaceRuns, hd, hq] at h
        exact ih _ c h hc
      · simp [replaceRuns, hd, hq] at h
        rcases h with h | h
        · exact h
        · exact ih _ c h hc
    · simp [replaceRuns, hd] at h
      rcases h with h | h
      · subst h; exact absurd hc hd
      · exact ih _ c h hc

theorem replaceRuns_eq_collapseRuns (t : List Char) :
    (∀ c ∈ t, isReSpace c = true → c = ' ') →
      replaceRuns none t = collapseRuns false t ∧
        replaceRuns (some ' ') t = collapseRuns true t := by
  induction t with
  | nil => intro _; exact ⟨rfl, rfl⟩
  | cons d ds ih =>
    intro h
    have ih' := ih (fun c hc => h c (List.mem_cons_of_mem _ hc))
    by_cases hd : isReSpace d = true
    · have hd' : d = ' ' := h d (List.mem_cons_self _ _) hd
      subst hd'
      simp [replaceRuns, collapseRuns, hd, ih'.2]
    · simp [replaceRuns, collapseRuns, hd, ih'.1]

theorem replaceRuns_twice (s : List Char) :
    replaceRuns none (replaceRuns none s) = collapseRuns false s := by
  rw [(replaceRuns_eq_collapseRuns _ (mem_replaceRuns_isReSpace s none)).1]
  exact collapseRuns_replaceRuns s false none (by simp)

theorem Collapsed.weaken {t : List Char} : ∀ {b : Bool}, Collapsed b t → Collapsed false t := by
  cases t with
  | nil => intro _ _; trivial
  | cons c cs =>
    intro b h
    by_cases hc : isReSpace c = true
    · simp only [Collapsed, hc, if_true] at h ⊢
      exact ⟨h.1, trivial, h.2.2⟩
    · simpa only [Collapsed, hc] using h

theorem collapsed_collapseRuns (s : List Char) : ∀ b : Bool, Collapsed b (collapseRuns b s) := by
  induction s with
  | nil => intro _; trivial
  | cons c cs ih =>
    intro b
    by_cases hc : isReSpace c = true
    · cases b
      · simp [collapseRuns, Collapsed, hc, isReSpace_space, ih true]
      · simpa [collapseRuns, hc] using ih true
    · simpa [collapseRuns, Collapsed, hc] using ih false

theorem collapseRuns_of_collapsed (t : List Char) :
    ∀ b : Bool, Collapsed b t → collapseRuns b t = t := by
  induction t with
  | nil => intro _ _; rfl
  | cons c cs ih =>
    intro b h
    by_cases hc : isReSpace c = true
    · simp only [Collapsed, hc, if_true] at h
      obtain ⟨h1, h2, h3⟩ := h
      subst h2
      subst h1
      simp [collapseRuns, hc, ih true h3]
    · simp only [Collapsed, hc] at h
      simp [collapseRuns, hc, ih false h]

theorem Collapsed.of_append_left (u w : List Char) :
    ∀ b : Bool, Collapsed b (u ++ w) → Collapsed b u := by
  induction u with
  | nil => intro _ _; trivial
  | cons c cs ih =>
    intro b h
    by_cases hc : isReSpace c = true
    · simp only [List.cons_append, Collapsed, hc, if_true] at h ⊢
      exact ⟨h.1, h.2.1, ih true h.2.2⟩
    · simp only [List.cons_append, Collapsed, hc] at h ⊢
      exact ih false h

theorem Collapsed.of_append_right (u w : List Char) :
    ∀ b : Bool, Collapsed b (u ++ w) → Collapsed false w := by
  induction u with
  | nil => intro b h; exact h.weaken
  | cons c cs ih =>
    intro b h
    by_cases hc : isReSpace c = true
    · simp only [List.cons_append, Collapsed, hc, if_true] at h
      exact ih true h.2.2
    · simp only [List.cons_append, Collapsed, hc] at h
      exact ih false h

theorem rdropWhile_cons_neg {p : Char → Bool} {c : Char} (hc : ¬ p c = true) (s : List Char) :
    (c :: s).rdropWhile p = c :: s.rdropWhile p := by
  induction s using List.reverseRecOn with
  | nil => simp [List.rdropWhile_singleton, hc]
  | append_singleton xs x ih =>
    by_cases hx : p x = true
    · rw [← List.cons_append, List.rdropWhile_concat_pos _ _ _ hx,
        List.rdropWhile_concat_pos _ _ _ hx, ih]
    · rw [← List.cons_append, List.rdropWhile_concat_neg _ _ _ hx,
        List.rdropWhile_concat_neg _ _ _ hx]
      rfl

theorem rdropWhile_append_all {p : Char → Bool} (x r : List Char) (h : ∀ c ∈ r, p c = true) :
    (x ++ r).rdropWhile p = x.rdropWhile p := by
  unfold List.rdropWhile
  rw [List.reverse_append, List.dropWhile_append_of_pos (by simpa using h)]

theorem trimChars_cons_pos {c : Char} (hc : isSpace c = true) (s : List Char) :
    trimChars (c :: s) = trimChars s := by
  simp [trimChars, hc]

theorem trimChars_cons_neg {c : Char} (hc : ¬ isSpace c = true) (s : List Char) :
    trimChars (c :: s) = c :: s.rdropWhile isSpace := by
  simp [trimChars, hc, rdropWhile_cons_neg hc]

theorem trimChars_append_all (s r : List Char) (h : ∀ c ∈ r, isSpace c = true) :
    trimChars (s ++ r) = trimChars s := by
  induction s with
  | nil =>
    have : r.dropWhile isSpace = [] := List.dropWhile_eq_nil_iff.2 h
    simp [trimChars, this]
  | cons c cs ih =>
    by_cases hc : isSpace c = true
    · rw [List.cons_append, trimChars_cons_pos hc, trimChars_cons_pos hc, ih]
    · rw [List.cons_append, trimChars_cons_neg hc, trimChars_cons_neg hc,
        rdropWhile_append_all _ _ h]

theorem trimChars_all_append (l s : List Char) (h : ∀ c ∈ l, isSpace c = true) :
    trimChars (l ++ s) = trimChars s := by
  induction l with
  | nil => rfl
  | cons c cs ih =>
    rw [List.cons_append, trimChars_cons_pos (h c (List.mem_cons_self _ _)),
      ih (fun d hd => h d (List.mem_cons_of_mem _ hd))]

theorem trimChars_eq_nil_iff (s : List Char) :
    trimChars s = [] ↔ ∀ c ∈ s, isSpace c = true := by
  induction s with
  | nil => simp [trimChars]
  | cons c cs ih =>
    by_cases hc : isSpace c = true
    · rw [trimChars_cons_pos hc, ih]; simp [hc]
    · rw [trimChars_cons_neg hc]; simp [hc]

theorem trimChars_idem (s : List Char) : trimChars (trimChars s) = trimChars s := by
  induction s with
  | nil => rfl
  | cons c cs ih =>
    by_cases hc : isSpace c = true
    · rw [trimChars_cons_pos hc, ih]
    · rw [trimChars_cons_neg hc, trimChars_cons_neg hc, List.rdropWhile_idempotent]

theorem trimChars_within (s : List Char) : ∃ u w, u ++ trimChars s ++ w = s := by
  obtain ⟨w, hw⟩ := List.rdropWhile_prefix isSpace (s.dropWhile isSpace)
  obtain ⟨u, hu⟩ := List.dropWhile_suffix isSpace (l := s)
  exact ⟨u, w, by rw [List.append_assoc, trimChars, hw, hu]⟩

theorem Collapsed.of_within {t s : List Char} (h : ∃ u w, u ++ t ++ w = s) {b : Bool}
    (hs : Collapsed b s) : Collapsed false t := by
  obtain ⟨u, w, rfl⟩ := h
  exact (Collapsed.of_append_left _ w false
    (Collapsed.of_append_right u _ b (by simpa using hs)))

theorem trim_collapse_idem (s : List Char) :
    trimChars (collapseRuns false (trimChars (collapseRuns false s)))
      = trimChars (collapseRuns false s) := by
  rw [collapseRuns_of_collapsed _ false
    (Collapsed.of_within (trimChars_within _) (collapsed_collapseRuns s false)), trimChars_idem]

theorem collapseRuns_append (xs ys : List Char) :
    ∀ b : Bool, ∃ b' : Bool,
      collapseRuns b (xs ++ ys) = collapseRuns b xs ++ collapseRuns b' ys := by
  induction xs with
  | nil => intro b; exact ⟨b, rfl⟩
  | cons c cs ih =>
    intro b
    by_cases hc : isReSpace c = true
    · obtain ⟨b', hb'⟩ := ih true
      refine ⟨b', ?_⟩
      cases b <;> simp [collapseRuns, hc, hb']
    · obtain ⟨b', hb'⟩ := ih false
      exact ⟨b', by simp [collapseRuns, hc, hb']⟩

theorem collapseRuns_all_space (s : List Char) :
    ∀ b : Bool, (∀ c ∈ collapseRuns b s, isSpace c = true) ↔ ∀ c ∈ s, isSpace c = true := by
  induction s with
  | nil => intro _; simp [collapseRuns]
  | cons c cs ih =>
    intro b
    by_cases hc : isReSpace c = true
    · have hs := isSpace_of_isReSpace hc
      have h0 : isSpace ' ' = true := by decide
      cases b <;> simp [collapseRuns, hc, hs, h0, ih true]
    · simp [collapseRuns, hc, ih false]

theorem trimChars_collapseRuns_dropWhile (s : List Char) :
    ∀ b b' : Bool, trimChars (collapseRuns b (s.dropWhile isSpace))
      = trimChars (collapseRuns b' s) := by
  induction s with
  | nil => intro _ _; rfl
  | cons c cs ih =>
    intro b b'
    by_cases hs : isSpace c = true
    · rw [List.dropWhile_cons_of_pos hs]
      by_cases hc : isReSpace c = true
      · cases b'
        · simp only [collapseRuns, hc, if_true, Bool.false_eq_true, if_false]
          rw [trimChars_cons_pos (by decide)]
          exact ih b true
        · simp only [collapseRuns, hc, if_true]
          exact ih b true
      · simp only [collapseRuns, hc, if_false, Bool.false_eq_true]
        rw [trimChars_cons_pos hs]
        exact ih b false
    · have hc : ¬ isReSpace c = true := fun h => hs (isSpace_of_isReSpace h)
      rw [List.dropWhile_cons_of_neg hs]
      simp [collapseRuns, hc]

theorem trimChars_collapseRuns_rdropWhile (s : List Char) :
    ∀ b : Bool, trimChars (collapseRuns b (s.rdropWhile isSpace))
      = trimChars (collapseRuns b s) := by
  induction s using List.reverseRecOn with
  | nil => intro _; rfl
  | append_singleton xs x ih =>
    intro b
    by_cases hx : isSpace x = true
    · rw [List.rdropWhile_concat_pos _ _ _ hx, ih b]
      obtain ⟨b', hb'⟩ := collapseRuns_append xs [x] b
      rw [hb', trimChars_append_all]
      exact (collapseRuns_all_space [x] b').2 (by simpa using hx)
    · rw [List.rdropWhile_concat_neg _ _ _ hx]

theorem trimChars_collapseRuns_trimChars (s : List Char) :
    trimChars (collapseRuns false (trimChars s)) = trimChars (collapseRuns false s) := by
  unfold trimChars
  have h1 := trimChars_collapseRuns_rdropWhile (s.dropWhile isSpace) false
  have h2 := trimChars_collapseRuns_dropWhile s false false
  unfold trimChars at h1 h2
  rw [h1, h2]

theorem trimChars_collapseRuns_eq_nil_iff (s : List Char) :
    trimChars (collapseRuns false s) = [] ↔ trimChars s = [] := by
  rw [trimChars_eq_nil_iff, trimChars_eq_nil_iff, collapseRuns_all_space]

/-! ### The same facts on strings -/

theorem cleanupWhitespace_data (s : String) :
    (cleanupWhitespace s).data = trimChars (collapseRuns false s.data) := by
  simp [cleanupWhitespace, ReplaceAllString, TrimSpace, replaceRuns_twice]

theorem cleanupWhitespace_TrimSpace (s : String) :
    cleanupWhitespace (TrimSpace s) = cleanupWhitespace s := by
  apply String.ext
  rw [cleanupWhitespace_data, cleanupWhitespace_data]
  exact trimChars_collapseRuns_trimChars s.data

theorem cleanupWhitespace_eq_empty_iff (s : String) :
    cleanupWhitespace s = "" ↔ TrimSpace s = "" := by
  rw [String.ext_iff, String.ext_iff, cleanupWhitespace_data]
  exact trimChars_collapseRuns_eq_nil_iff s.data

theorem length_eq_zero_iff (s : String) : s.length = 0 ↔ s = "" := by
  rw [String.ext_iff]
  exact List.length_eq_zero

theorem TrimSpace_idem (s : String) : TrimSpace (TrimSpace s) = TrimSpace s := by
  apply String.ext
  exact trimChars_idem s.data

/-! ### The stack -/

@[simp] theorem Stack.Peek_nil : Stack.Peek ⟨[]⟩ = none := rfl

@[simp] theorem Stack.Pop_nil : Stack.Pop ⟨[]⟩ = (none, ⟨[]⟩) := rfl

@[simp] theorem Stack.Peek_concat (l : List EADNode) (en : EADNode) :
    Stack.Peek ⟨l ++ [en]⟩ = some en := by
  simp [Stack.Peek]

@[simp] theorem Stack.Pop_concat (l : List EADNode) (en : EADNode) :
    Stack.Pop ⟨l ++ [en]⟩ = (some en, ⟨l⟩) := by
  simp [Stack.Pop]

@[simp] theorem Stack.setTop_concat (l : List EADNode) (en en' : EADNode) :
    Stack.setTop ⟨l ++ [en]⟩ en' = ⟨l ++ [en']⟩ := by
  simp [Stack.setTop]

theorem Stack.Peek_eq_none_iff (s : Stack) : s.Peek = none ↔ s.S = [] := by
  cases s with
  | mk l =>
    cases l using List.reverseRecOn with
    | nil => simp
    | append_singleton xs x => simp

theorem Stack.eq_concat_of_ne_nil (s : Stack) (h : s.S ≠ []) :
    s = ⟨s.S.dropLast ++ [s.S.getLast h]⟩ := by
  cases s with
  | mk l => simp [List.dropLast_append_getLast]

/-! ### One token -/

theorem step_StartElement (st : EADState) (name : String) (attrs : List XmlAttr) :
    step st (.StartElement name attrs)
      = .ok { st with Stack := st.Stack.Push (NewEADNode name attrs) } := rfl

theorem step_CharData_blank (st : EADState) (el : String) (h : TrimSpace el = "") :
    step st (.CharData el) = .ok st := by
  simp [step, h]

theorem step_CharData_concat (l : List EADNode) (en : EADNode) (tr : Option EADNode)
    (er : List String) (el : String) (h : TrimSpace el ≠ "") :
    step ⟨⟨l ++ [en]⟩, tr, er⟩ (.CharData el)
      = .ok ⟨⟨l ++ [en.setValue (TrimSpace el)]⟩, tr, er⟩ := by
  have h' : ¬ (TrimSpace el).length = 0 := fun h0 => h ((length_eq_zero_iff _).1 h0)
  simp [step, h']

theorem step_CharData_nil (tr : Option EADNode) (er : List String) (el : String)
    (h : TrimSpace el ≠ "") :
    step ⟨⟨[]⟩, tr, er⟩ (.CharData el) = .error (.inCharData el (TrimSpace el)) := by
  have h' : ¬ (TrimSpace el).length = 0 := fun h0 => h ((length_eq_zero_iff _).1 h0)
  simp [step, h']

theorem step_EndElement_nil (tr : Option EADNode) (er : List String) (name : String) :
    step ⟨⟨[]⟩, tr, er⟩ (.EndElement name) = .error (.inEndElement name) := rfl

theorem step_EndElement_root (en : EADNode) (tr : Option EADNode) (er : List String)
    (name : String) :
    step ⟨⟨[en]⟩, tr, er⟩ (.EndElement name) = .ok ⟨⟨[]⟩, some en, er⟩ := by
  rfl

theorem step_EndElement_child (l : List EADNode) (parent en : EADNode) (tr : Option EADNode)
    (er : List String) (name : String) :
    step ⟨⟨l ++ [parent] ++ [en]⟩, tr, er⟩ (.EndElement name)
      = .ok ⟨⟨l ++ [parent.appendChild en]⟩, tr, er⟩ := by
  simp only [step, Stack.Pop_concat, Stack.Peek_concat, Stack.setTop_concat]

/-! ### The loop -/

theorem runFrom_append (xs ys : List Token) :
    ∀ st : EADState, runFrom st (xs ++ ys)
      = match runFrom st xs with
        | .error e => .error e
        | .ok st' => runFrom st' ys := by
  induction xs with
  | nil => intro st; rfl
  | cons x xs ih =>
    intro st
    simp only [List.cons_append, runFrom]
    cases step st x with
    | error e => rfl
    | ok st' => exact ih st'

theorem runFrom_cons_ok {st st' : EADState} {tok : Token} (h : step st tok = .ok st')
    (toks : List Token) : runFrom st (tok :: toks) = runFrom st' toks := by
  simp [runFrom, h]

/-! ### Attribute maps -/

theorem Attr.set_of_not_mem (m : Attr) (k v : String) (h : k ∉ m.map Prod.fst) :
    Attr.set m k v = m ++ [(k, v)] := by
  induction m with
  | nil => rfl
  | cons kv m ih =>
    obtain ⟨k', v'⟩ := kv
    simp only [List.map_cons, List.mem_cons, not_or] at h
    have hk : ¬ k' = k := fun e => h.1 e.symm
    simp [Attr.set, hk, ih h.2]

theorem Attr.foldl_set_nodup (a : Attr) :
    ∀ m : Attr, ((m ++ a).map Prod.fst).Nodup →
      a.toXml.foldl (fun m x => Attr.set m x.Local x.Value) m = m ++ a := by
  induction a with
  | nil => intro m _; simp [Attr.toXml]
  | cons kv a ih =>
    intro m h
    obtain ⟨k, v⟩ := kv
    have hk : k ∉ m.map Prod.fst := by
      intro hmem
      rw [List.map_append, List.map_cons] at h
      exact (List.nodup_append.1 h).2.2 hmem (List.mem_cons_self _ _)
    have h' : (((m ++ [(k, v)]) ++ a).map Prod.fst).Nodup := by simpa using h
    have := ih (m ++ [(k, v)]) h'
    simp only [Attr.toXml, List.map_cons, List.foldl_cons] at this ⊢
    rw [Attr.set_of_not_mem m k v hk, this]
    simp

theorem NewEADNode_toXml (n : String) (a : Attr) (h : (a.map Prod.fst).Nodup) :
    NewEADNode n a.toXml = .mk n a "" [] := by
  simp [NewEADNode, Attr.foldl_set_nodup a [] (by simpa using h)]

/-! ### The loop on the event list of a tree -/

theorem EADNode.appendChildren_cons (p c : EADNode) (cs : List EADNode) :
    (p.appendChild c).appendChildren cs = p.appendChildren (c :: cs) := by
  cases p
  simp [EADNode.appendChild, EADNode.appendChildren, EADNode.Name, EADNode.Attr,
    EADNode.Value, EADNode.Children]

mutual
theorem runFrom_flatten : ∀ t : EADNode, WellFormed t →
    ∀ (l : List EADNode) (tr : Option EADNode) (er : List String) (rest : List Token),
      runFrom ⟨⟨l⟩, tr, er⟩ (flatten t ++ rest)
        = runFrom ⟨⟨l ++ [t]⟩, tr, er⟩ (.EndElement t.Name :: rest)
  | .mk n a v cs => by
    intro h l tr er rest
    obtain ⟨ha, hv, hcs⟩ := h
    have hkids := runFrom_flattenList cs hcs l (.mk n a v []) tr er
      (Token.EndElement n :: rest)
    simp only [EADNode.appendChildren, EADNode.Name, EADNode.Attr, EADNode.Value,
      EADNode.Children, List.nil_append] at hkids
    simp only [flatten, List.cons_append, List.append_assoc, List.singleton_append]
    rw [runFrom_cons_ok (step_StartElement _ n a.toXml), NewEADNode_toXml n a ha]
    simp only [Stack.Push]
    rcases hv with hv | ⟨hv1, hv2⟩
    · subst hv
      simpa using hkids
    · have hne : v ≠ "" := fun e => hv1 (by rw [e]; rfl)
      simp only [hne, if_false, List.cons_append, List.nil_append]
      rw [runFrom_cons_ok (step_CharData_concat l _ tr er v hv1), hv2]
      simpa [EADNode.setValue, EADNode.Name, EADNode.Attr, EADNode.Children] using hkids
theorem runFrom_flattenList : ∀ cs : List EADNode, WellFormedList cs →
    ∀ (l : List EADNode) (p : EADNode) (tr : Option EADNode) (er : List String)
      (rest : List Token),
      runFrom ⟨⟨l ++ [p]⟩, tr, er⟩ (flattenList cs ++ rest)
        = runFrom ⟨⟨l ++ [p.appendChildren cs]⟩, tr, er⟩ rest
  | [] => by
    intro _ l p tr er rest
    cases p
    simp [flattenList, EADNode.appendChildren, EADNode.Name, EADNode.Attr,
      EADNode.Value, EADNode.Children]
  | c :: cs => by
    intro h l p tr er rest
    obtain ⟨hc, hcs⟩ := h
    simp only [flattenList, List.append_assoc]
    rw [runFrom_flatten c hc (l ++ [p]) tr er (flattenList cs ++ rest),
      runFrom_cons_ok (step_EndElement_child l p c tr er c.Name),
      runFrom_flattenList cs hcs l (p.appendChild c) tr er rest,
      EADNode.appendChildren_cons]
end

theorem lastNonBlank_cons_blank (t : String) (ts : List String) (h : TrimSpace t = "") :
    lastNonBlank (t :: ts) = lastNonBlank ts := by
  simp [lastNonBlank, h]

theorem lastNonBlank_cons_nonblank (t : String) (ts : List String) (h : TrimSpace t ≠ "") :
    lastNonBlank (t :: ts) = some ((lastNonBlank ts).getD t) := by
  simp [lastNonBlank, h, List.getLast?_cons]

theorem textAfter_cons_blank (v t : String) (ts : List String) (h : TrimSpace t = "") :
    textAfter v (t :: ts) = textAfter v ts := by
  simp [textAfter, lastNonBlank_cons_blank t ts h]

theorem textAfter_cons_nonblank (v t : String) (ts : List String) (h : TrimSpace t ≠ "") :
    textAfter v (t :: ts) = textAfter (TrimSpace t) ts := by
  simp only [textAfter, lastNonBlank_cons_nonblank t ts h]
  cases lastNonBlank ts <;> rfl

theorem runFrom_bodyTokens (items : List Item) :
    ItemsWellFormed items →
    ∀ (l : List EADNode) (n : String) (a : Attr) (v : String) (cs : List EADNode)
      (tr : Option EADNode) (er : List String) (rest : List Token),
      runFrom ⟨⟨l ++ [.mk n a v cs]⟩, tr, er⟩ (bodyTokens items ++ rest)
        = runFrom ⟨⟨l ++ [.mk n a (textAfter v (itemTexts items))
            (cs ++ itemChildren items)]⟩, tr, er⟩ rest := by
  induction items with
  | nil => intro _ l n a v cs tr er rest; simp [bodyTokens, itemTexts, itemChildren, textAfter, lastNonBlank]
  | cons i is ih =>
    intro h l n a v cs tr er rest
    cases i with
    | text raw =>
      simp only [bodyTokens, Item.tokens, itemTexts, itemChildren, List.cons_append,
        List.nil_append]
      by_cases hraw : TrimSpace raw = ""
      · rw [runFrom_cons_ok (step_CharData_blank _ raw hraw), textAfter_cons_blank _ _ _ hraw]
        exact ih h l n a v cs tr er rest
      · rw [runFrom_cons_ok (step_CharData_concat l _ tr er raw hraw),
          textAfter_cons_nonblank _ _ _ hraw]
        exact ih h l n a (TrimSpace raw) cs tr er rest
    | child t =>
      obtain ⟨ht, his⟩ := h
      simp only [bodyTokens, Item.tokens, itemTexts, itemChildren, List.append_assoc]
      rw [runFrom_flatten t ht (l ++ [EADNode.mk n a v cs]) tr er (bodyTokens is ++ rest),
        runFrom_cons_ok (step_EndElement_child l _ t tr er t.Name)]
      have := ih his l n a v (cs ++ [t]) tr er rest
      simpa [EADNode.appendChild, EADNode.Name, EADNode.Attr, EADNode.Value,
        EADNode.Children] using this

/-! ### Invariants of the loop -/

theorem eq_nil_or_snoc (l : List EADNode) : l = [] ∨ ∃ l' en, l = l' ++ [en] := by
  cases l using List.reverseRecOn with
  | nil => exact Or.inl rfl
  | append_singleton xs x => exact Or.inr ⟨xs, x, rfl⟩

theorem step_Len {st st' : EADState} {tok : Token} (h : step st tok = .ok st') :
    st'.Stack.Len + (if tok.isEnd then 1 else 0)
      = st.Stack.Len + (if tok.isStart then 1 else 0) := by
  obtain ⟨⟨l⟩, tr, er⟩ := st
  cases tok with
  | StartElement n a =>
    rw [step_StartElement] at h
    cases h
    simp [Stack.Len, Stack.Push, Token.isEnd, Token.isStart]
  | CharData el =>
    by_cases hb : TrimSpace el = ""
    · rw [step_CharData_blank _ _ hb] at h
      cases h
      simp [Token.isEnd, Token.isStart]
    · rcases eq_nil_or_snoc l with rfl | ⟨l', en, rfl⟩
      · rw [step_CharData_nil _ _ _ hb] at h
        cases h
      · rw [step_CharData_concat _ _ _ _ _ hb] at h
        cases h
        simp [Stack.Len, Token.isEnd, Token.isStart]
  | EndElement n =>
    rcases eq_nil_or_snoc l with rfl | ⟨l', en, rfl⟩
    · rw [step_EndElement_nil] at h
      cases h
    · rcases eq_nil_or_snoc l' with rfl | ⟨l2, p, rfl⟩
      · rw [List.nil_append, step_EndElement_root] at h
        cases h
        simp [Stack.Len, Token.isEnd, Token.isStart]
      · rw [step_EndElement_child] at h
        cases h
        simp [Stack.Len, Token.isEnd, Token.isStart]
  | Comment d => cases h; simp [Token.isEnd, Token.isStart]
  | ProcInst t i => cases h; simp [Token.isEnd, Token.isStart]
  | Directive d => cases h; simp [Token.isEnd, Token.isStart]

theorem runFrom_Len (toks : List Token) :
    ∀ {st st' : EADState}, runFrom st toks = .ok st' →
      st'.Stack.Len + closes toks = st.Stack.Len + opens toks := by
  induction toks with
  | nil => intro st st' h; cases h; simp [opens, closes]
  | cons tok toks ih =>
    intro st st' h
    simp only [runFrom] at h
    cases hs : step st tok with
    | error e => rw [hs] at h; cases h
    | ok st1 =>
      rw [hs] at h
      have h1 := step_Len hs
      have h2 := ih h
      simp only [opens, closes, List.countP_cons] at h2 ⊢
      omega

theorem step_Rooted {st st' : EADState} {tok : Token} (h : step st tok = .ok st')
    (hr : Rooted st ∨ tok.isStart = true) : Rooted st' := by
  obtain ⟨⟨l⟩, tr, er⟩ := st
  cases tok with
  | StartElement n a =>
    rw [step_StartElement] at h
    cases h
    exact Or.inr (by simp [Stack.Push])
  | CharData el =>
    have hr' : Rooted ⟨⟨l⟩, tr, er⟩ := hr.resolve_right (by simp [Token.isStart])
    by_cases hb : TrimSpace el = ""
    · rw [step_CharData_blank _ _ hb] at h
      cases h
      exact hr'
    · rcases eq_nil_or_snoc l with rfl | ⟨l', en, rfl⟩
      · rw [step_CharData_nil _ _ _ hb] at h
        cases h
      · rw [step_CharData_concat _ _ _ _ _ hb] at h
        cases h
        exact Or.inr (by simp)
  | EndElement n =>
    rcases eq_nil_or_snoc l with rfl | ⟨l', en, rfl⟩
    · rw [step_EndElement_nil] at h
      cases h
    · rcases eq_nil_or_snoc l' with rfl | ⟨l2, p, rfl⟩
      · rw [List.nil_append, step_EndElement_root] at h
        cases h
        exact Or.inl (by simp)
      · rw [step_EndElement_child] at h
        cases h
        exact Or.inr (by simp)
  | Comment d => cases h; exact hr.resolve_right (by simp [Token.isStart])
  | ProcInst t i => cases h; exact hr.resolve_right (by simp [Token.isStart])
  | Directive d => cases h; exact hr.resolve_right (by simp [Token.isStart])

theorem runFrom_Rooted (toks : List Token) :
    ∀ {st st' : EADState}, runFrom st toks = .ok st' →
      Rooted st ∨ 0 < opens toks → Rooted st' := by
  induction toks with
  | nil =>
    intro st st' h hr
    cases h
    exact hr.resolve_right (by simp [opens])
  | cons tok toks ih =>
    intro st st' h hr
    simp only [runFrom] at h
    cases hs : step st tok with
    | error e => rw [hs] at h; cases h
    | ok st1 =>
      rw [hs] at h
      by_cases ht : tok.isStart = true
      · exact ih h (Or.inl (step_Rooted hs (Or.inr ht)))
      · rcases hr with hr | hr
        · exact ih h (Or.inl (step_Rooted hs (Or.inl hr)))
        · refine ih h (Or.inr ?_)
          simpa [opens, List.countP_cons, ht] using hr

theorem main_of_run_ok {toks : List Token} {st : EADState} (h : run toks = .ok st) :
    main toks = .ok st.Tree := by
  simp [main, h]

theorem main_of_run_error {toks : List Token} {e : Fatal} (h : run toks = .error e) :
    main toks = .error e := by
  simp [main, h]

theorem run_append_error {pre : List Token} {st : EADState} {tok : Token} {e : Fatal}
    (hpre : run pre = .ok st) (htok : step st tok = .error e) (rest : List Token) :
    run (pre ++ tok :: rest) = .error e := by
  unfold run at hpre ⊢
  rw [runFrom_append, hpre]
  simp [runFrom, htok]

theorem text?_TrimSpace (n : String) (a : Attr) (cs : List EADNode) (raw : String)
    (h : TrimSpace raw ≠ "") :
    (EADNode.mk n a (TrimSpace raw) cs).text? = some (cleanupWhitespace raw) := by
  have h' : ¬ (TrimSpace raw).length = 0 := fun h0 => h ((length_eq_zero_iff _).1 h0)
  simp [EADNode.text?, EADNode.Value, h', FilteredString.String, cleanupWhitespace_TrimSpace]

theorem Collapsed.isReSpace_eq {t : List Char} :
    ∀ {b : Bool}, Collapsed b t → ∀ c ∈ t, isReSpace c = true → c = ' ' := by
  induction t with
  | nil => intro _ _ c hc; simp at hc
  | cons d ds ih =>
    intro b h c hc hre
    by_cases hd : isReSpace d = true
    · simp only [Collapsed, hd, if_true] at h
      rcases List.mem_cons.1 hc with rfl | hc
      · exact h.1
      · exact ih h.2.2 c hc hre
    · simp only [Collapsed, hd] at h
      rcases List.mem_cons.1 hc with rfl | hc
      · exact absurd hre hd
      · exact ih h c hc hre

theorem Collapsed.no_double_space {t : List Char} {b : Bool} (h : Collapsed b t) :
    ¬ [' ', ' '] <:+: t := by
  rintro ⟨u, w, rfl⟩
  have h1 : Collapsed false ([' ', ' '] ++ w) :=
    Collapsed.of_append_right u _ b (by simpa using h)
  simp [Collapsed, isReSpace_space] at h1

theorem collapsed_cleanupWhitespace (s : String) : Collapsed false (cleanupWhitespace s).data := by
  rw [cleanupWhitespace_data]
  exact Collapsed.of_within (trimChars_within _) (collapsed_collapseRuns s.data false)

/-! ## The claims -/

/-- C1: round trip.  For every tree `t` whose nodes have key-unique attributes and a
text that is absent, or not blank and already trimmed, the loop of gen-json.go run
from `new(EADState)` over the event list `flatten t` ends without error, with an empty
stack and `Tree` equal to `t` (children in document order), and `main` hands `t` over. -/
theorem C1_round_trip (t : EADNode) (h : WellFormed t) :
    run (flatten t) = .ok ⟨⟨[]⟩, some t, []⟩ ∧ main (flatten t) = .ok (some t) := by
  have hrun : run (flatten t) = .ok ⟨⟨[]⟩, some t, []⟩ := by
    have := runFrom_flatten t h [] none [] []
    rw [List.append_nil, List.nil_append,
      runFrom_cons_ok (step_EndElement_root t none [] t.Name)] at this
    exact this
  exact ⟨hrun, main_of_run_ok hrun⟩

/-- C1, at `Open(A) Open(B) Close Open(C) Close Close`: root `A` with the children
`[B, C]`, both without children and without text. -/
theorem C1_round_trip_witness :
    WellFormed (.mk "A" [] "" [.mk "B" [] "" [], .mk "C" [] "" []]) ∧
    run [.StartElement "A" [], .StartElement "B" [], .EndElement "B",
        .StartElement "C" [], .EndElement "C", .EndElement "A"]
      = .ok ⟨⟨[]⟩, some (.mk "A" [] "" [.mk "B" [] "" [], .mk "C" [] "" []]), []⟩ :=
  have hwf : WellFormed (.mk "A" [] "" [.mk "B" [] "" [], .mk "C" [] "" []]) := by
    simp [WellFormed, WellFormedList]
  ⟨hwf, (C1_round_trip _ hwf).1⟩

/-- C2: `cleanupWhitespace` is idempotent: for every string `s`,
`cleanupWhitespace (cleanupWhitespace s) = cleanupWhitespace s`. -/
theorem C2_cleanupWhitespace_idempotent (s : String) :
    cleanupWhitespace (cleanupWhitespace s) = cleanupWhitespace s := by
  apply String.ext
  rw [cleanupWhitespace_data, cleanupWhitespace_data]
  exact trim_collapse_idem s.data

/-- C3 as stated fails: on a vertical tab followed by `a` the code returns `a`,
because `strings.TrimSpace` removes the vertical tab too, while the mixed-run collapse
followed by the removal of leading and trailing spaces leaves the string as it is. -/
theorem C3_counterexample :
    cleanupWhitespace "\x0ba" = "a" ∧ specNormalize "\x0ba" = "\x0ba" ∧
      cleanupWhitespace "\x0ba" ≠ specNormalize "\x0ba" := by
  decide

/-- C3, amended: for every string `s`, `cleanupWhitespace s` is `s` with every maximal
run of carriage returns, newlines, tabs or spaces (mixed or not) replaced by a single
space, and then with the leading and trailing white space of `strings.TrimSpace`
removed.  The two passes of the regular expression together are the mixed-run
collapse; the result has no `\r`, `\n`, `\t` and no two adjacent spaces;
`cleanupWhitespace "a\n\n\t  b" = "a b"` and `cleanupWhitespace "   " = ""`. -/
theorem C3_cleanupWhitespace_reference (s : String) :
    cleanupWhitespace s = specNormalizeTrimSpace s ∧
    ReplaceAllString (ReplaceAllString s) = ⟨collapseRuns false s.data⟩ ∧
    (∀ c ∈ (cleanupWhitespace s).data, c ≠ '\r' ∧ c ≠ '\n' ∧ c ≠ '\t') ∧
    ¬ [' ', ' '] <:+: (cleanupWhitespace s).data ∧
    cleanupWhitespace "a\n\n\t  b" = "a b" ∧ cleanupWhitespace "   " = "" := by
  refine ⟨?_, ?_, ?_, (collapsed_cleanupWhitespace s).no_double_space, by decide, by decide⟩
  · apply String.ext
    rw [cleanupWhitespace_data]
    rfl
  · simp [ReplaceAllString, replaceRuns_twice]
  · intro c hc
    have h := (collapsed_cleanupWhitespace s).isReSpace_eq c hc
    refine ⟨?_, ?_, ?_⟩ <;> rintro rfl <;> exact absurd (h (by decide)) (by decide)

/-- C4: last write wins.  An element is opened on any state; while it is the top of
the stack it receives text events, possibly with whole child elements (trees of
the round trip) between them;
then it is closed, under any closing name.  The outcome is that of closing a node whose
stored text is the trimmed last text event that is not blank, and empty (absent) when
every text event is blank: nothing is appended or merged.  The text the node is
rendered with is then the normalisation of that last text event, or none. -/
theorem C4_last_text_wins (st : EADState) (name : String) (attrs : List XmlAttr)
    (items : List Item) (closing : String) (h : ItemsWellFormed items) :
    runFrom st (.StartElement name attrs :: (bodyTokens items ++ [.EndElement closing]))
      = step ⟨⟨st.Stack.S ++ [.mk name (NewEADNode name attrs).Attr
            (textAfter "" (itemTexts items)) (itemChildren items)]⟩, st.Tree, st.Errors⟩
          (.EndElement closing) ∧
    (EADNode.mk name (NewEADNode name attrs).Attr (textAfter "" (itemTexts items))
        (itemChildren items)).text?
      = (lastNonBlank (itemTexts items)).map cleanupWhitespace := by
  constructor
  · obtain ⟨⟨l⟩, tr, er⟩ := st
    rw [runFrom_cons_ok (step_StartElement _ name attrs)]
    have := runFrom_bodyTokens items h l name (NewEADNode name attrs).Attr "" [] tr er
      [.EndElement closing]
    simp only [List.nil_append] at this
    simp only [Stack.Push]
    have hn : NewEADNode name attrs = .mk name (NewEADNode name attrs).Attr "" [] := rfl
    rw [hn, this]
    simp [runFrom, EADNode.Attr]
    cases step _ _ <;> rfl
  · unfold textAfter
    cases hl : lastNonBlank (itemTexts items) with
    | none => rfl
    | some t =>
      have hmem : t ∈ (itemTexts items).filter (fun t => decide (TrimSpace t ≠ "")) :=
        List.mem_of_getLast?_eq_some hl
      have ht : TrimSpace t ≠ "" := by simpa using (List.mem_filter.1 hmem).2
      simpa using text?_TrimSpace name _ (itemChildren items) t ht

/-- C4, at `Open(A) Text("x") Text("y") Close`: node `A` with text `y`. -/
theorem C4_last_text_wins_witness :
    ItemsWellFormed [.text "x", .text "y"] ∧
    run [.StartElement "A" [], .CharData "x", .CharData "y", .EndElement "A"]
      = .ok ⟨⟨[]⟩, some (.mk "A" [] "y" []), []⟩ ∧
    (EADNode.mk "A" [] "y" []).text? = some "y" :=
  have hwf : ItemsWellFormed [.text "x", .text "y"] := by simp [ItemsWellFormed]
  ⟨hwf, (C4_last_text_wins EADState.new "A" [] [.text "x", .text "y"] "A" hwf).1,
    (C4_last_text_wins EADState.new "A" [] [.text "x", .text "y"] "A" hwf).2⟩

/-- C5: on a state with a non-empty stack and a raw string whose normalisation is not
empty, `Text(raw)` replaces the `Value` of the node on top of the stack by the trimmed
raw string, which is rendered (`FilteredString.String`, the string `MarshalJSON`
emits) as `cleanupWhitespace raw`; the name, attributes and children of that node,
every other stack entry, the depth and `Tree` are unchanged. -/
theorem C5_text_stored (st : EADState) (raw : String) (hs : st.Stack.S ≠ [])
    (hraw : cleanupWhitespace raw ≠ "") :
    step st (.CharData raw)
      = .ok ⟨⟨st.Stack.S.dropLast ++ [.mk (st.Stack.S.getLast hs).Name
            (st.Stack.S.getLast hs).Attr (TrimSpace raw) (st.Stack.S.getLast hs).Children]⟩,
          st.Tree, st.Errors⟩ ∧
    (EADNode.mk (st.Stack.S.getLast hs).Name (st.Stack.S.getLast hs).Attr (TrimSpace raw)
        (st.Stack.S.getLast hs).Children).text? = some (cleanupWhitespace raw) := by
  have ht : TrimSpace raw ≠ "" := fun e => hraw ((cleanupWhitespace_eq_empty_iff raw).2 e)
  refine ⟨?_, text?_TrimSpace _ _ _ raw ht⟩
  obtain ⟨stack, tr, er⟩ := st
  have hstack := Stack.eq_concat_of_ne_nil stack hs
  generalize stack.S.getLast hs = top at hstack ⊢
  generalize stack.S.dropLast = l at hstack ⊢
  subst hstack
  rw [step_CharData_concat l top tr er raw ht]
  rfl

/-- C5, at the stack `[A]` and the raw text `" a\n\nb "`. -/
theorem C5_text_stored_witness :
    cleanupWhitespace " a\n\nb " ≠ "" ∧
    step ⟨⟨[.mk "A" [("k", "v")] "" []]⟩, none, []⟩ (.CharData " a\n\nb ")
      = .ok ⟨⟨[.mk "A" [("k", "v")] "a\n\nb" []]⟩, none, []⟩ ∧
    (EADNode.mk "A" [("k", "v")] "a\n\nb" []).text? = some "a b" :=
  ⟨by decide,
    (C5_text_stored ⟨⟨[.mk "A" [("k", "v")] "" []]⟩, none, []⟩ " a\n\nb "
      (by simp) (by decide)).1,
    (C5_text_stored ⟨⟨[.mk "A" [("k", "v")] "" []]⟩, none, []⟩ " a\n\nb "
      (by simp) (by decide)).2⟩

/-- C6: on every state, whatever its stack, and every raw string whose normalisation
is empty, `Text(raw)` leaves the whole reduction state unchanged. -/
theorem C6_blank_text_discarded (st : EADState) (raw : String)
    (hraw : cleanupWhitespace raw = "") :
    step st (.CharData raw) = .ok st :=
  step_CharData_blank st raw ((cleanupWhitespace_eq_empty_iff raw).1 hraw)

/-- C6, at `Open(A) Text("   \n  ") Close`: the text event changes nothing, and node
`A` ends with an empty `Value`, which is rendered as no text at all. -/
theorem C6_blank_text_discarded_witness :
    cleanupWhitespace "   \n  " = "" ∧
    step ⟨⟨[.mk "A" [] "" []]⟩, none, []⟩ (.CharData "   \n  ")
      = .ok ⟨⟨[.mk "A" [] "" []]⟩, none, []⟩ ∧
    run [.StartElement "A" [], .CharData "   \n  ", .EndElement "A"]
      = .ok ⟨⟨[]⟩, some (.mk "A" [] "" []), []⟩ ∧
    (EADNode.mk "A" [] "" []).text? = none :=
  ⟨by decide, C6_blank_text_discarded _ _ (by decide), by rfl, by rfl⟩

/-- C7: on every state whose stack is empty, a `Close` event ends the conversion with
the fatal error of the `EndElement` case (`Stack should not be empty`): the event
yields no state, so `Tree` is not assigned by it, and whatever events came before and
would come after, `main` produces no tree. -/
theorem C7_unmatched_close_fatal (st : EADState) (name : String) (hs : st.Stack.S = []) :
    step st (.EndElement name) = .error (.inEndElement name) ∧
    ∀ pre rest : List Token, run pre = .ok st →
      main (pre ++ .EndElement name :: rest) = .error (.inEndElement name) := by
  obtain ⟨⟨l⟩, tr, er⟩ := st
  cases hs
  exact ⟨rfl, fun pre rest hpre =>
    main_of_run_error (run_append_error hpre (step_EndElement_nil tr er name) rest)⟩

/-- C7, at a bare `Close` on the initial state. -/
theorem C7_unmatched_close_fatal_witness :
    EADState.new.Stack.S = [] ∧
    step EADState.new (.EndElement "A") = .error (.inEndElement "A") ∧
    main [.EndElement "A"] = .error (.inEndElement "A") :=
  ⟨rfl, (C7_unmatched_close_fatal EADState.new "A" rfl).1,
    (C7_unmatched_close_fatal EADState.new "A" rfl).2 [] [] rfl⟩

/-- C8 as stated fails: a blank text on the empty stack is skipped by the guard
`len(str) != 0` before the stack is looked at, so nothing is aborted. -/
theorem C8_counterexample :
    EADState.new.Stack.S = [] ∧
    step EADState.new (.CharData " \n ") = .ok EADState.new ∧
    main [.CharData " \n "] = .ok none :=
  ⟨rfl, rfl, rfl⟩

/-- C8, amended: for every raw string that is not blank (its `strings.TrimSpace` is not
empty), a `Text(raw)` event on a state whose stack is empty ends the conversion with
the fatal error of the `CharData` case (`Stack should not be empty`). -/
theorem C8_text_without_element_fatal (st : EADState) (raw : String) (hs : st.Stack.S = [])
    (hraw : TrimSpace raw ≠ "") :
    step st (.CharData raw) = .error (.inCharData raw (TrimSpace raw)) ∧
    ∀ pre rest : List Token, run pre = .ok st →
      main (pre ++ .CharData raw :: rest) = .error (.inCharData raw (TrimSpace raw)) := by
  obtain ⟨⟨l⟩, tr, er⟩ := st
  cases hs
  exact ⟨step_CharData_nil tr er raw hraw, fun pre rest hpre =>
    main_of_run_error (run_append_error hpre (step_CharData_nil tr er raw hraw) rest)⟩

/-- C8, amended, at the text ` x ` before any element. -/
theorem C8_text_without_element_fatal_witness :
    EADState.new.Stack.S = [] ∧ TrimSpace " x " ≠ "" ∧
    step EADState.new (.CharData " x ") = .error (.inCharData " x " "x") ∧
    main [.CharData " x "] = .error (.inCharData " x " "x") :=
  ⟨rfl, by decide, (C8_text_without_element_fatal EADState.new " x " rfl (by decide)).1,
    (C8_text_without_element_fatal EADState.new " x " rfl (by decide)).2 [] [] rfl⟩

/-- C9, on the code: an unterminated stream is accepted.  For the document `<A>` the
decoder delivers `Open(A)` and then a `nil` token together with its error for the
unexpected end.  The head of the loop tests `token == nil` first and breaks, so the
`log.Fatalf` on a decoder error that follows it is not reached: the loop ends with `A`
still on the stack, and `main` hands the `nil` tree over without any error.  The same
happens for `Open(A) Open(B) Close`. -/
theorem C9_unterminated_stream_accepted :
    run [.StartElement "A" []] = .ok ⟨⟨[.mk "A" [] "" []]⟩, none, []⟩ ∧
    main [.StartElement "A" []] = .ok none ∧
    run [.StartElement "A" [], .StartElement "B" [], .EndElement "B"]
      = .ok ⟨⟨[.mk "A" [] "" [.mk "B" [] "" []]]⟩, none, []⟩ ∧
    main [.StartElement "A" [], .StartElement "B" [], .EndElement "B"] = .ok none :=
  ⟨rfl, rfl, rfl, rfl⟩

/-- C10 as stated fails: the loop processes `Open(A)` to the end of the stream without
an error, and the final state has a non-empty stack and no root; on no event at all
the stack is empty and there is no root either. -/
theorem C10_counterexample :
    run [.StartElement "A" []] = .ok ⟨⟨[.mk "A" [] "" []]⟩, none, []⟩ ∧
    run [] = .ok ⟨⟨[]⟩, none, []⟩ :=
  ⟨rfl, rfl⟩

/-- C10, amended: for every event sequence that the loop processes to the end of the
stream without an error and that has as many `Close` as `Open` events, and at least
one, the final state has an empty stack and a root (`Tree` is set). -/
theorem C10_single_root (toks : List Token) (st : EADState) (h : run toks = .ok st)
    (hbal : closes toks = opens toks) (hpos : 0 < opens toks) :
    st.Stack.S = [] ∧ ∃ root : EADNode, st.Tree = some root := by
  have hlen := runFrom_Len toks h
  have hroot := runFrom_Rooted toks h (Or.inr hpos)
  have hnil : st.Stack.S = [] := by
    have : st.Stack.Len = 0 := by
      simp only [EADState.new, Stack.Len, List.length_nil] at hlen
      simp only [Stack.Len]
      omega
    exact List.length_eq_zero.1 this
  refine ⟨hnil, ?_⟩
  rcases hroot with hr | hr
  · exact Option.ne_none_iff_exists'.1 hr
  · exact absurd hnil hr

/-- C10, amended, at `Open(A) Open(B) Close Close`. -/
theorem C10_single_root_witness :
    run [.StartElement "A" [], .StartElement "B" [], .EndElement "B", .EndElement "A"]
      = .ok ⟨⟨[]⟩, some (.mk "A" [] "" [.mk "B" [] "" []]), []⟩ ∧
    (⟨⟨[]⟩, some (.mk "A" [] "" [.mk "B" [] "" []]), []⟩ : EADState).Stack.S = [] ∧
    ∃ root : EADNode,
      (⟨⟨[]⟩, some (.mk "A" [] "" [.mk "B" [] "" []]), []⟩ : EADState).Tree = some root :=
  ⟨rfl, C10_single_root
    [.StartElement "A" [], .StartElement "B" [], .EndElement "B", .EndElement "A"]
    ⟨⟨[]⟩, some (.mk "A" [] "" [.mk "B" [] "" []]), []⟩ rfl (by decide) (by decide)⟩

/-! ### Single events on a non-empty stack -/

/-- C11: on a state with a non-empty stack, `Close` pops the top node `n`.  If the
stack is then empty, `Tree` becomes `n` and the stack stays empty.  Otherwise `n` is
appended as the last child of the new top, whose name, attributes, text and earlier
children are unchanged, as are the deeper stack entries and `Tree`.  In both cases the
depth decreases by exactly one. -/
theorem C11_close_links (st : EADState) (name : String) (hs : st.Stack.S ≠ []) :
    (st.Stack.S.dropLast = [] →
      step st (.EndElement name) = .ok ⟨⟨[]⟩, some (st.Stack.S.getLast hs), st.Errors⟩) ∧
    (∀ hp : st.Stack.S.dropLast ≠ [],
      step st (.EndElement name)
        = .ok ⟨⟨st.Stack.S.dropLast.dropLast ++ [.mk (st.Stack.S.dropLast.getLast hp).Name
              (st.Stack.S.dropLast.getLast hp).Attr (st.Stack.S.dropLast.getLast hp).Value
              ((st.Stack.S.dropLast.getLast hp).Children ++ [st.Stack.S.getLast hs])]⟩,
            st.Tree, st.Errors⟩) ∧
    ∃ st' : EADState, step st (.EndElement name) = .ok st' ∧
      st'.Stack.Len + 1 = st.Stack.Len := by
  obtain ⟨stack, tr, er⟩ := st
  have hstack := Stack.eq_concat_of_ne_nil stack hs
  generalize stack.S.getLast hs = top at hstack ⊢
  obtain ⟨l⟩ := stack
  simp only [Stack.mk.injEq] at hstack
  simp only
  rcases eq_nil_or_snoc l.dropLast with hl | ⟨l2, p, hl⟩
  · rw [hl, List.nil_append] at hstack
    subst hstack
    refine ⟨fun _ => step_EndElement_root top tr er name, fun hp => absurd rfl hp, ?_⟩
    exact ⟨_, step_EndElement_root top tr er name, rfl⟩
  · have hl' : l = l2 ++ [p] ++ [top] := by rw [hstack, hl]
    subst hl'
    have hstep := step_EndElement_child l2 p top tr er name
    refine ⟨fun h0 => ?_, fun hp => ?_, ?_⟩
    · simp at h0
    · rw [hstep]
      simp [EADNode.appendChild]
    · exact ⟨_, hstep, by simp [Stack.Len]⟩

/-! ### The attribute map of `NewEADNode` -/

theorem Attr.keys_set (m : Attr) (k v : String) :
    (Attr.set m k v).keys = if k ∈ m.keys then m.keys else m.keys ++ [k] := by
  induction m with
  | nil => simp [Attr.set, Attr.keys]
  | cons kv m ih =>
    obtain ⟨k', v'⟩ := kv
    by_cases hk : k' = k
    · subst hk
      simp [Attr.set, Attr.keys]
    · have hk' : ¬ k = k' := fun e => hk e.symm
      simp only [Attr.keys] at ih
      simp only [Attr.set, hk, if_false, Attr.keys, List.map_cons, List.mem_cons, hk',
        false_or, ih]
      split <;> simp

theorem Attr.nodup_keys_set (m : Attr) (k v : String) (h : m.keys.Nodup) :
    (Attr.set m k v).keys.Nodup := by
  rw [Attr.keys_set]
  split
  · exact h
  · rename_i hk
    exact List.nodup_append.2 ⟨h, List.nodup_singleton k, by
      intro a ha hb
      rw [List.mem_singleton] at hb
      exact hk (hb ▸ ha)⟩

theorem lookup_cons_ite (k' k0 v0 : String) (m : Attr) :
    List.lookup k' ((k0, v0) :: m) = if k' = k0 then some v0 else List.lookup k' m := by
  by_cases h : k' = k0
  · subst h
    simp [List.lookup_cons]
  · have hb : (k' == k0) = false := by simpa using h
    simp [List.lookup_cons, hb, h]

theorem Attr.get?_set (m : Attr) (k v k' : String) :
    Attr.get? (Attr.set m k v) k' = if k' = k then some v else Attr.get? m k' := by
  induction m with
  | nil =>
    simp only [Attr.set, Attr.get?, lookup_cons_ite]
  | cons kv m ih =>
    obtain ⟨k0, v0⟩ := kv
    simp only [Attr.get?] at ih
    by_cases hk : k0 = k
    · subst hk
      simp only [Attr.set, Attr.get?, if_true, lookup_cons_ite]
      split <;> rfl
    · simp only [Attr.set, Attr.get?, hk, if_false, lookup_cons_ite, ih]
      by_cases h0 : k' = k0
      · have : ¬ k' = k := fun e => hk (h0 ▸ e)
        simp [h0, hk]
      · simp [h0]

theorem Attr.foldl_set_keys (attrs : List XmlAttr) :
    ∀ m : Attr, m.keys.Nodup →
      (attrs.foldl (fun m a => Attr.set m a.Local a.Value) m).keys.Nodup ∧
      ∀ k, k ∈ (attrs.foldl (fun m a => Attr.set m a.Local a.Value) m).keys
        ↔ k ∈ m.keys ∨ ∃ a ∈ attrs, a.Local = k := by
  induction attrs with
  | nil => intro m h; simp [h]
  | cons a as ih =>
    intro m h
    obtain ⟨h1, h2⟩ := ih (Attr.set m a.Local a.Value) (Attr.nodup_keys_set m _ _ h)
    refine ⟨h1, fun k => ?_⟩
    rw [List.foldl_cons, h2 k, Attr.keys_set]
    by_cases hm : a.Local ∈ m.keys
    · simp only [hm, if_true, List.mem_cons, exists_eq_or_imp]
      constructor
      · rintro (h | h)
        · exact Or.inl h
        · exact Or.inr (Or.inr h)
      · rintro (h | h | h)
        · exact Or.inl h
        · exact Or.inl (h ▸ hm)
        · exact Or.inr h
    · simp only [hm, if_false, List.mem_append, List.mem_singleton, List.mem_cons,
        exists_eq_or_imp]
      constructor
      · rintro ((h | h | h) | h)
        · exact Or.inl h
        · exact Or.inr (Or.inl h.symm)
        · exact absurd h (List.not_mem_nil k)
        · exact Or.inr (Or.inr h)
      · rintro (h | h | h)
        · exact Or.inl (Or.inl h)
        · exact Or.inl (Or.inr (Or.inl h.symm))
        · exact Or.inr h

theorem Attr.foldl_set_get? (attrs : List XmlAttr) (k : String) :
    ∀ m : Attr, Attr.get? (attrs.foldl (fun m a => Attr.set m a.Local a.Value) m) k
      = match attrs.reverse.find? (fun a => decide (a.Local = k)) with
        | some a => some a.Value
        | none => Attr.get? m k := by
  induction attrs with
  | nil => intro m; simp
  | cons a as ih =>
    intro m
    rw [List.foldl_cons, ih, List.reverse_cons, List.find?_append]
    cases has : as.reverse.find? (fun a => decide (a.Local = k)) with
    | some b => simp
    | none =>
      by_cases hk : a.Local = k
      · simp [Attr.get?_set, hk]
      · have hk' : ¬ k = a.Local := fun e => hk e.symm
        simp [Attr.get?_set, hk, hk']

/-- C12: on every state, `Open(name, attrs)` does not fail and pushes exactly one node:
its name is the given local name, its text is empty, it has no children, and its
attribute map has each key once, the keys being exactly the local names of the list,
each mapped to the value of the last list entry with that local name.  The entries
already on the stack and `Tree` are unchanged, and the depth grows by one. -/
theorem C12_open_pushes (st : EADState) (name : String) (attrs : List XmlAttr) :
    step st (.StartElement name attrs)
      = .ok ⟨⟨st.Stack.S ++ [NewEADNode name attrs]⟩, st.Tree, st.Errors⟩ ∧
    (st.Stack.S ++ [NewEADNode name attrs]).length = st.Stack.Len + 1 ∧
    (NewEADNode name attrs).Name = name ∧
    (NewEADNode name attrs).Value = "" ∧
    (NewEADNode name attrs).Children = [] ∧
    (NewEADNode name attrs).Attr.keys.Nodup ∧
    (∀ k, k ∈ (NewEADNode name attrs).Attr.keys ↔ ∃ a ∈ attrs, a.Local = k) ∧
    ∀ k, Attr.get? (NewEADNode name attrs).Attr k
      = (attrs.reverse.find? (fun a => decide (a.Local = k))).map XmlAttr.Value := by
  have hk := Attr.foldl_set_keys attrs [] (by simp [Attr.keys])
  refine ⟨rfl, by simp [Stack.Len], rfl, rfl, rfl, hk.1, fun k => ?_, fun k => ?_⟩
  · simpa [Attr.keys] using hk.2 k
  · have := Attr.foldl_set_get? attrs k []
    simp only [NewEADNode, EADNode.Attr]
    rw [this]
    cases attrs.reverse.find? (fun a => decide (a.Local = k)) <;> simp [Attr.get?]

/-- C13: the name of a `Close` event is not looked at, only the stack depth.  On every
state, two closing names lead to the same outcome: on an empty stack both abort in
the `EndElement` case, the name being no more than the value printed by the fatal
message; on any other stack both succeed with one and the same state.  In particular
`Open(A)` followed by `Close(B)` succeeds with root `A`. -/
theorem C13_close_name_unchecked (st : EADState) (n1 n2 : String) :
    ((st.Stack.S = [] ∧ step st (.EndElement n1) = .error (.inEndElement n1)
        ∧ step st (.EndElement n2) = .error (.inEndElement n2))
      ∨ ∃ st' : EADState, step st (.EndElement n1) = .ok st'
        ∧ step st (.EndElement n2) = .ok st') ∧
    run [.StartElement "A" [], .EndElement "B"] = .ok ⟨⟨[]⟩, some (.mk "A" [] "" []), []⟩ := by
  refine ⟨?_, rfl⟩
  obtain ⟨⟨l⟩, tr, er⟩ := st
  rcases eq_nil_or_snoc l with rfl | ⟨l1, en, rfl⟩
  · exact Or.inl ⟨rfl, rfl, rfl⟩
  · rcases eq_nil_or_snoc l1 with rfl | ⟨l2, p, rfl⟩
    · exact Or.inr ⟨_, step_EndElement_root en tr er n1, step_EndElement_root en tr er n2⟩
    · exact Or.inr ⟨_, step_EndElement_child l2 p en tr er n1,
        step_EndElement_child l2 p en tr er n2⟩

/-! ### Sorted keys -/

theorem sortedKeys_perm (m : Attr) : (sortedKeys m).Perm m.keys :=
  List.perm_insertionSort _ _

theorem sortedKeys_sorted (m : Attr) : (sortedKeys m).Sorted (fun a b => a ≤ b) :=
  List.sorted_insertionSort _ _

theorem sortedKeys_congr {m m' : Attr} (h : m.Perm m') : sortedKeys m = sortedKeys m' :=
  List.eq_of_perm_of_sorted
    (((sortedKeys_perm m).trans (h.map Prod.fst)).trans (sortedKeys_perm m').symm)
    (sortedKeys_sorted m) (sortedKeys_sorted m')

theorem Attr.get?_eq_some_iff (m : Attr) (h : m.keys.Nodup) (k v : String) :
    Attr.get? m k = some v ↔ (k, v) ∈ m := by
  induction m with
  | nil => simp [Attr.get?]
  | cons kv m ih =>
    obtain ⟨k0, v0⟩ := kv
    simp only [Attr.keys, List.map_cons, List.nodup_cons] at h
    have ih' := ih h.2
    simp only [Attr.get?] at ih' ⊢
    rw [lookup_cons_ite]
    by_cases hk : k = k0
    · subst hk
      simp only [if_true, Option.some.injEq, List.mem_cons, Prod.mk.injEq, true_and]
      constructor
      · intro e
        exact Or.inl e.symm
      · rintro (e | e)
        · exact e.symm
        · exact absurd (List.mem_map_of_mem Prod.fst e) h.1
    · simp [hk, ih']

theorem Attr.get?_congr {m m' : Attr} (h : m.keys.Nodup) (hp : m.Perm m') (k : String) :
    Attr.get? m k = Attr.get? m' k := by
  have h' : m'.keys.Nodup := ((hp.map Prod.fst).nodup_iff).1 h
  apply Option.ext
  intro v
  rw [Option.mem_def, Option.mem_def, Attr.get?_eq_some_iff m h,
    Attr.get?_eq_some_iff m' h', hp.mem_iff]

/-- C14: the key view computed for a node, `sort.Strings` over the keys of its
attribute map, holds the keys of the map, each as often as the map has it (once), in
ascending order, and is the same for every order in which the map hands out its
entries.  A rendering that lists the attributes by this view, as the specification
asks of the serializer, therefore does not depend on that order either; for the
attributes `z = 1`, `a = 2` it lists `a` before `z`.  In gen-json.go the view is
computed in the `StartElement` case and computing it does not change the node that is
pushed. -/
theorem C14_sorted_keys (m m' : Attr) (st : EADState) (name : String)
    (attrs : List XmlAttr) :
    (sortedKeys m).Perm m.keys ∧
    (m.keys.Nodup → (sortedKeys m).Nodup) ∧
    (sortedKeys m).Sorted (fun a b => a ≤ b) ∧
    (m.Perm m' → sortedKeys m = sortedKeys m') ∧
    (m.keys.Nodup → m.Perm m' → renderAttr m = renderAttr m') ∧
    sortedKeys (NewEADNode "e" [⟨"z", "1"⟩, ⟨"a", "2"⟩]).Attr = ["a", "z"] ∧
    renderAttr (NewEADNode "e" [⟨"z", "1"⟩, ⟨"a", "2"⟩]).Attr
      = [("a", some "2"), ("z", some "1")] ∧
    renderAttr [("z", "1"), ("a", "2")] = [("a", some "2"), ("z", some "1")] ∧
    renderAttr [("a", "2"), ("z", "1")] = [("a", some "2"), ("z", some "1")] ∧
    step st (.StartElement name attrs)
      = .ok ⟨st.Stack.Push (NewEADNode name attrs), st.Tree, st.Errors⟩ := by
  have hza : ¬ ("z" ≤ "a") := by
    rw [String.le_iff_toList_le]
    decide
  have haz : "a" ≤ "z" := by
    rw [String.le_iff_toList_le]
    decide
  refine ⟨sortedKeys_perm m, fun h => (sortedKeys_perm m).nodup_iff.2 h, sortedKeys_sorted m,
    sortedKeys_congr, fun h hp => ?_, ?_, ?_, ?_, ?_, rfl⟩
  · unfold renderAttr
    rw [sortedKeys_congr hp]
    exact List.map_congr_left (fun k _ => by rw [Attr.get?_congr h hp k])
  · simp [sortedKeys, List.insertionSort, List.orderedInsert, hza, NewEADNode, Attr.set,
      EADNode.Attr]
  · simp [renderAttr, sortedKeys, List.insertionSort, List.orderedInsert, hza, NewEADNode,
      Attr.set, EADNode.Attr, Attr.get?, List.lookup]
  · simp [renderAttr, sortedKeys, List.insertionSort, List.orderedInsert, hza, Attr.get?,
      List.lookup]
  · simp [renderAttr, sortedKeys, List.insertionSort, List.orderedInsert, haz, Attr.get?,
      List.lookup]

/-! ### The two stacks -/

theorem Stack.popN_pushAll (vs : List EADNode) :
    ∀ s : Stack, Stack.popN vs.length (s.pushAll vs) = (vs.reverse.map some, s) := by
  induction vs using List.reverseRecOn with
  | nil => intro s; rfl
  | append_singleton vs v ih =>
    intro s
    have hpush : s.pushAll (vs ++ [v]) = ⟨(s.pushAll vs).S ++ [v]⟩ := by
      simp [Stack.pushAll, List.foldl_append, Stack.Push]
    rw [List.length_append, List.length_singleton, hpush]
    simp only [Stack.popN, Stack.Pop_concat, ih]
    simp

theorem MainGo_Peek_concat (l : List MainGo.EADNode) (v : MainGo.EADNode) :
    MainGo.Stack.Peek ⟨l ++ [v]⟩ = (some v, none) := by
  simp [MainGo.Stack.Peek]

theorem MainGo_Pop_concat (l : List MainGo.EADNode) (v : MainGo.EADNode) :
    MainGo.Stack.Pop ⟨l ++ [v]⟩ = (some v, none, ⟨l⟩) := by
  simp [MainGo.Stack.Pop]

theorem MainGo_popN_pushAll (vs : List MainGo.EADNode) :
    ∀ s : MainGo.Stack, MainGo.Stack.popN vs.length (s.pushAll vs)
      = (vs.reverse.map (fun v => (some v, none)), s) := by
  induction vs using List.reverseRecOn with
  | nil => intro s; rfl
  | append_singleton vs v ih =>
    intro s
    have hpush : s.pushAll (vs ++ [v]) = ⟨(s.pushAll vs).S ++ [v]⟩ := by
      simp [MainGo.Stack.pushAll, List.foldl_append, MainGo.Stack.Push]
    rw [List.length_append, List.length_singleton, hpush]
    simp only [MainGo.Stack.popN, MainGo_Pop_concat, ih]
    simp

/-- C15: the stack is last in, first out, in gen-json.go and in main.go.  For every
stack `s` and node `v`: after `Push(v)` the length is `Len(s) + 1`, `Peek` returns `v`
(and writes nothing), and `Pop` returns `v` and leaves exactly `s`; pushing `v1..vn`
and popping `n` times returns `vn..v1` and leaves exactly `s`.  In main.go every one
of these calls returns a `nil` error. -/
theorem C15_stack_lifo (s : Stack) (v : EADNode) (vs : List EADNode)
    (t : MainGo.Stack) (w : MainGo.EADNode) (ws : List MainGo.EADNode) :
    ((s.Push v).Len = s.Len + 1 ∧ (s.Push v).Peek = some v ∧ (s.Push v).Pop = (some v, s)
      ∧ Stack.popN vs.length (s.pushAll vs) = (vs.reverse.map some, s)) ∧
    ((t.Push w).Len = t.Len + 1 ∧ (t.Push w).Peek = (some w, none)
      ∧ (t.Push w).Pop = (some w, none, t)
      ∧ MainGo.Stack.popN ws.length (t.pushAll ws)
          = (ws.reverse.map (fun v => (some v, none)), t)) := by
  refine ⟨⟨by simp [Stack.Push, Stack.Len], Stack.Peek_concat _ _, Stack.Pop_concat _ _,
    Stack.popN_pushAll vs s⟩, ⟨by simp [MainGo.Stack.Push, MainGo.Stack.Len],
    MainGo_Peek_concat _ _, MainGo_Pop_concat _ _, MainGo_popN_pushAll ws t⟩⟩

/-- C16: the two `Stack` implementations agree.  Let the stack of main.go hold, entry
by entry, the nodes `f v` for the nodes `v` of the stack `s` of gen-json.go.  Then
`Peek` and `Pop` of main.go return the error `Stack is empty` if and only if
`Len(s) = 0`, which is exactly when those of gen-json.go return `nil`; in that case
both stacks are left unchanged.  In every other case main.go returns a `nil` error,
both return the same node, and both leave the same stack. -/
theorem C16_stacks_agree (s : Stack) (f : EADNode → MainGo.EADNode) :
    MainGo.Stack.Peek ⟨s.S.map f⟩
      = (s.Peek.map f, if s.Len = 0 then some "Stack is empty" else none) ∧
    MainGo.Stack.Pop ⟨s.S.map f⟩
      = ((s.Pop).1.map f, if s.Len = 0 then some "Stack is empty" else none,
          ⟨(s.Pop).2.S.map f⟩) ∧
    (s.Peek = none ↔ s.Len = 0) ∧ ((s.Pop).1 = none ↔ s.Len = 0) ∧
    ((MainGo.Stack.Peek ⟨s.S.map f⟩).2 = some "Stack is empty" ↔ s.Len = 0) ∧
    ((MainGo.Stack.Pop ⟨s.S.map f⟩).2.1 = some "Stack is empty" ↔ s.Len = 0) ∧
    (MainGo.Stack.Len ⟨s.S.map f⟩ = 0 ↔ s.Len = 0) ∧
    (s.Len = 0 → (s.Pop).2 = s ∧
      (MainGo.Stack.Pop ⟨s.S.map f⟩).2.2 = ⟨s.S.map f⟩) := by
  obtain ⟨l⟩ := s
  rcases eq_nil_or_snoc l with rfl | ⟨l1, v, rfl⟩
  · simp [MainGo.Stack.Peek, MainGo.Stack.Pop, MainGo.Stack.Len, Stack.Len]
  · simp [MainGo.Stack.Peek, MainGo.Stack.Pop, MainGo.Stack.Len, Stack.Len]

/-! ### Stored values -/

theorem ValueOK_empty : ValueOK "" := Or.inl rfl

theorem cleanupWhitespace_idem (s : String) :
    cleanupWhitespace (cleanupWhitespace s) = cleanupWhitespace s := by
  apply String.ext
  rw [cleanupWhitespace_data, cleanupWhitespace_data]
  exact trim_collapse_idem s.data

theorem ValueOK_TrimSpace (raw : String) (h : TrimSpace raw ≠ "") : ValueOK (TrimSpace raw) := by
  refine Or.inr ⟨?_, cleanupWhitespace_idem _⟩
  intro he
  have := (cleanupWhitespace_eq_empty_iff (TrimSpace raw)).1 he
  rw [TrimSpace_idem] at this
  exact h this

theorem ValuesOKList_append (l l' : List EADNode) :
    ValuesOKList (l ++ l') ↔ ValuesOKList l ∧ ValuesOKList l' := by
  induction l with
  | nil => simp [ValuesOKList]
  | cons c cs ih => simp [ValuesOKList, ih, and_assoc]

theorem ValuesOKList_singleton (en : EADNode) : ValuesOKList [en] ↔ ValuesOK en := by
  simp [ValuesOKList]

theorem ValuesOK_NewEADNode (name : String) (attrs : List XmlAttr) :
    ValuesOK (NewEADNode name attrs) := by
  simp [NewEADNode, ValuesOK, ValuesOKList, ValueOK_empty]

theorem ValuesOK_setValue (en : EADNode) (v : String) (h : ValuesOK en) (hv : ValueOK v) :
    ValuesOK (en.setValue v) := by
  cases en
  simp only [ValuesOK, EADNode.setValue, EADNode.Children] at h ⊢
  exact ⟨hv, h.2⟩

theorem ValuesOK_appendChild (p en : EADNode) (hp : ValuesOK p) (hen : ValuesOK en) :
    ValuesOK (p.appendChild en) := by
  cases p
  simp only [ValuesOK, EADNode.appendChild, EADNode.Children, EADNode.Value] at hp ⊢
  exact ⟨hp.1, (ValuesOKList_append _ _).2 ⟨hp.2, (ValuesOKList_singleton en).2 hen⟩⟩

theorem step_StateOK {st st' : EADState} {tok : Token} (h : step st tok = .ok st')
    (hst : StateOK st) : StateOK st' := by
  obtain ⟨⟨l⟩, tr, er⟩ := st
  obtain ⟨hl, htr⟩ := hst
  simp only at hl htr
  cases tok with
  | StartElement n a =>
    rw [step_StartElement] at h
    cases h
    exact ⟨(ValuesOKList_append _ _).2 ⟨hl, (ValuesOKList_singleton _).2
      (ValuesOK_NewEADNode n a)⟩, htr⟩
  | CharData el =>
    by_cases hb : TrimSpace el = ""
    · rw [step_CharData_blank _ _ hb] at h
      cases h
      exact ⟨hl, htr⟩
    · rcases eq_nil_or_snoc l with rfl | ⟨l1, en, rfl⟩
      · rw [step_CharData_nil _ _ _ hb] at h
        cases h
      · rw [step_CharData_concat _ _ _ _ _ hb] at h
        cases h
        obtain ⟨h1, h2⟩ := (ValuesOKList_append _ _).1 hl
        exact ⟨(ValuesOKList_append _ _).2 ⟨h1, (ValuesOKList_singleton _).2
          (ValuesOK_setValue en _ ((ValuesOKList_singleton _).1 h2)
            (ValueOK_TrimSpace el hb))⟩, htr⟩
  | EndElement n =>
    rcases eq_nil_or_snoc l with rfl | ⟨l1, en, rfl⟩
    · rw [step_EndElement_nil] at h
      cases h
    · obtain ⟨h1, h2⟩ := (ValuesOKList_append _ _).1 hl
      have hen := (ValuesOKList_singleton _).1 h2
      rcases eq_nil_or_snoc l1 with rfl | ⟨l2, p, rfl⟩
      · rw [List.nil_append, step_EndElement_root] at h
        cases h
        refine ⟨trivial, fun t ht => ?_⟩
        cases ht
        exact hen
      · rw [step_EndElement_child] at h
        cases h
        obtain ⟨h3, h4⟩ := (ValuesOKList_append _ _).1 h1
        exact ⟨(ValuesOKList_append _ _).2 ⟨h3, (ValuesOKList_singleton _).2
          (ValuesOK_appendChild p en ((ValuesOKList_singleton _).1 h4) hen)⟩, htr⟩
  | Comment d => cases h; exact ⟨hl, htr⟩
  | ProcInst t i => cases h; exact ⟨hl, htr⟩
  | Directive d => cases h; exact ⟨hl, htr⟩

theorem runFrom_StateOK (toks : List Token) :
    ∀ {st st' : EADState}, runFrom st toks = .ok st' → StateOK st → StateOK st' := by
  induction toks with
  | nil => intro st st' h hst; cases h; exact hst
  | cons tok toks ih =>
    intro st st' h hst
    simp only [runFrom] at h
    cases hs : step st tok with
    | error e => rw [hs] at h; cases h
    | ok st1 =>
      rw [hs] at h
      exact ih h (step_StateOK hs hst)

/-- C17: trimming first changes nothing for the normalisation, and the blank test of
the loop is the blank test of the normalisation: for every string `raw`,
`cleanupWhitespace (TrimSpace raw) = cleanupWhitespace raw`, and `TrimSpace raw` is
empty if and only if `cleanupWhitespace raw` is.  Hence, in every state the loop
reaches from `new(EADState)`, every stored `Value`, on the stack or under `Tree`, is
empty or is rendered as a non-empty normalised string. -/
theorem C17_trim_then_normalise (raw : String) (toks : List Token) (st : EADState)
    (h : run toks = .ok st) :
    cleanupWhitespace (TrimSpace raw) = cleanupWhitespace raw ∧
    (TrimSpace raw = "" ↔ cleanupWhitespace raw = "") ∧
    StateOK st :=
  ⟨cleanupWhitespace_TrimSpace raw, (cleanupWhitespace_eq_empty_iff raw).symm,
    runFrom_StateOK toks h ⟨trivial, fun t ht => by cases ht⟩⟩

/-! ### When the loop aborts -/

theorem step_error_iff (st : EADState) (tok : Token) :
    (∃ e, step st tok = .error e) ↔ st.Stack.S = [] ∧ tok.needsElement = true := by
  obtain ⟨⟨l⟩, tr, er⟩ := st
  cases tok with
  | StartElement n a => simp [step_StartElement, Token.needsElement]
  | CharData el =>
    by_cases hb : TrimSpace el = ""
    · simp [step_CharData_blank _ _ hb, Token.needsElement, hb]
    · rcases eq_nil_or_snoc l with rfl | ⟨l1, en, rfl⟩
      · simp [step_CharData_nil _ _ _ hb, Token.needsElement, hb]
      · simp [step_CharData_concat _ _ _ _ _ hb]
  | EndElement n =>
    rcases eq_nil_or_snoc l with rfl | ⟨l1, en, rfl⟩
    · simp [step_EndElement_nil, Token.needsElement]
    · rcases eq_nil_or_snoc l1 with rfl | ⟨l2, p, rfl⟩
      · rw [List.nil_append, step_EndElement_root]
        simp
      · rw [step_EndElement_child]
        simp
  | Comment d => simp [step, Token.needsElement]
  | ProcInst t i => simp [step, Token.needsElement]
  | Directive d => simp [step, Token.needsElement]

theorem runFrom_error_split (toks : List Token) :
    ∀ {st : EADState} {e : Fatal}, runFrom st toks = .error e →
      ∃ pre tok post st1, toks = pre ++ tok :: post ∧ runFrom st pre = .ok st1
        ∧ step st1 tok = .error e := by
  induction toks with
  | nil => intro st e h; cases h
  | cons tok toks ih =>
    intro st e h
    simp only [runFrom] at h
    cases hs : step st tok with
    | error e' =>
      rw [hs] at h
      cases h
      exact ⟨[], tok, toks, st, rfl, rfl, hs⟩
    | ok st1 =>
      rw [hs] at h
      obtain ⟨pre, tok', post, st2, h1, h2, h3⟩ := ih h
      exact ⟨tok :: pre, tok', post, st2, by rw [h1]; rfl, by simp [runFrom, hs, h2], h3⟩

theorem run_Len {toks : List Token} {st : EADState} (h : run toks = .ok st) :
    st.Stack.Len + closes toks = opens toks := by
  have := runFrom_Len toks h
  simpa [EADState.new, Stack.Len] using this

/-- C18: the loop run from `new(EADState)` over an event list aborts if and only if
some event of the list is a `Close`, or a text that is not blank, and arrives when as
many `Open` as `Close` events came before it; and after every start of the list that
is processed without abort, the stack length is the number of `Open` events minus the
number of `Close` events of that start. -/
theorem C18_abort_condition (toks : List Token) :
    ((∃ e, run toks = .error e) ↔
      ∃ pre tok post, toks = pre ++ tok :: post ∧ tok.needsElement = true
        ∧ opens pre = closes pre) ∧
    ∀ pre post st, toks = pre ++ post → run pre = .ok st →
      closes pre ≤ opens pre ∧ st.Stack.Len = opens pre - closes pre := by
  constructor
  · constructor
    · rintro ⟨e, he⟩
      obtain ⟨pre, tok, post, st1, h1, h2, h3⟩ := runFrom_error_split toks he
      obtain ⟨hnil, hneeds⟩ := (step_error_iff st1 tok).1 ⟨e, h3⟩
      have hlen := run_Len h2
      simp only [Stack.Len, hnil, List.length_nil, Nat.zero_add] at hlen
      exact ⟨pre, tok, post, h1, hneeds, hlen.symm⟩
    · rintro ⟨pre, tok, post, h1, hneeds, hbal⟩
      subst h1
      cases hpre : run pre with
      | error e =>
        refine ⟨e, ?_⟩
        unfold run at hpre ⊢
        rw [runFrom_append, hpre]
      | ok st1 =>
        have hlen := run_Len hpre
        have hnil : st1.Stack.S = [] := by
          apply List.length_eq_zero.1
          simp only [Stack.Len] at hlen
          omega
        obtain ⟨e, he⟩ := (step_error_iff st1 tok).2 ⟨hnil, hneeds⟩
        exact ⟨e, run_append_error hpre he post⟩
  · intro pre post st _ hpre
    have hlen := run_Len hpre
    omega

/-- C19: the last top-level element wins.  A `Close` that empties the stack assigns
`Tree` whatever `Tree` held before, and so the loop run over the event lists of
several top-level elements, one after the other, ends without error with an empty
stack and with `Tree` the last of them; the earlier ones are dropped.  For
`Open(A) Close Open(B) Close` the final tree is `B`. -/
theorem C19_last_top_level_wins (ts : List EADNode) (h : WellFormedList ts) :
    run (flattenList ts) = .ok ⟨⟨[]⟩, ts.getLast?, []⟩ ∧
    ∀ (en : EADNode) (tr : Option EADNode) (er : List String) (name : String),
      step ⟨⟨[en]⟩, tr, er⟩ (.EndElement name) = .ok ⟨⟨[]⟩, some en, er⟩ := by
  refine ⟨?_, fun en tr er name => step_EndElement_root en tr er name⟩
  have key : ∀ (ts : List EADNode), WellFormedList ts → ∀ tr : Option EADNode,
      runFrom ⟨⟨[]⟩, tr, []⟩ (flattenList ts)
        = .ok ⟨⟨[]⟩, (ts.getLast?).or tr, []⟩ := by
    intro ts
    induction ts with
    | nil => intro _ tr; simp [flattenList, runFrom]
    | cons c cs ih =>
      intro hwf tr
      obtain ⟨hc, hcs⟩ := hwf
      simp only [flattenList]
      rw [runFrom_flatten c hc [] tr [] (flattenList cs), List.nil_append,
        runFrom_cons_ok (step_EndElement_root c tr [] c.Name), ih hcs (some c),
        List.getLast?_cons]
      cases cs.getLast? <;> rfl
  have := key ts h none
  simpa [run, EADState.new] using this

/-! ### What the normalisation keeps -/

theorem filter_collapseRuns (s : List Char) :
    ∀ b : Bool, (collapseRuns b s).filter (fun c => !isSpace c)
      = s.filter (fun c => !isSpace c) := by
  induction s with
  | nil => intro _; rfl
  | cons c cs ih =>
    intro b
    by_cases hc : isReSpace c = true
    · have hs := isSpace_of_isReSpace hc
      have h0 : isSpace ' ' = true := by decide
      cases b <;> simp [collapseRuns, hc, hs, h0, ih true]
    · simp [collapseRuns, hc, ih false, List.filter_cons]

theorem filter_dropWhile_isSpace (s : List Char) :
    (s.dropWhile isSpace).filter (fun c => !isSpace c) = s.filter (fun c => !isSpace c) := by
  induction s with
  | nil => rfl
  | cons c cs ih =>
    by_cases hc : isSpace c = true
    · simp [List.dropWhile_cons_of_pos hc, ih, hc]
    · simp [List.dropWhile_cons_of_neg hc]

theorem filter_rdropWhile_isSpace (s : List Char) :
    (s.rdropWhile isSpace).filter (fun c => !isSpace c) = s.filter (fun c => !isSpace c) := by
  induction s using List.reverseRecOn with
  | nil => rfl
  | append_singleton xs x ih =>
    by_cases hx : isSpace x = true
    · rw [List.rdropWhile_concat_pos _ _ _ hx, ih]
      simp [hx]
    · rw [List.rdropWhile_concat_neg _ _ _ hx]

theorem filter_trimChars (s : List Char) :
    (trimChars s).filter (fun c => !isSpace c) = s.filter (fun c => !isSpace c) := by
  rw [trimChars, filter_rdropWhile_isSpace, filter_dropWhile_isSpace]

theorem sum_collapseRuns_le (w : Char → Nat)
    (hw : ∀ c, isReSpace c = true → w ' ' ≤ w c) (s : List Char) :
    ∀ b : Bool, ((collapseRuns b s).map w).sum ≤ (s.map w).sum := by
  induction s with
  | nil => intro _; simp [collapseRuns]
  | cons c cs ih =>
    intro b
    by_cases hc : isReSpace c = true
    · have h1 := ih true
      have h2 := hw c hc
      cases b <;> simp [collapseRuns, hc] <;> omega
    · have h1 := ih false
      simp [collapseRuns, hc]
      omega

theorem sum_dropWhile_le (w : Char → Nat) (p : Char → Bool) (s : List Char) :
    ((s.dropWhile p).map w).sum ≤ (s.map w).sum := by
  induction s with
  | nil => simp
  | cons c cs ih =>
    by_cases hc : p c = true
    · rw [List.dropWhile_cons_of_pos hc]
      simp
      omega
    · rw [List.dropWhile_cons_of_neg hc]

theorem sum_rdropWhile_le (w : Char → Nat) (p : Char → Bool) (s : List Char) :
    ((s.rdropWhile p).map w).sum ≤ (s.map w).sum := by
  induction s using List.reverseRecOn with
  | nil => simp
  | append_singleton xs x ih =>
    by_cases hx : p x = true
    · rw [List.rdropWhile_concat_pos _ _ _ hx]
      simp
      omega
    · rw [List.rdropWhile_concat_neg _ _ _ hx]

theorem sum_cleanup_le (w : Char → Nat) (hw : ∀ c, isReSpace c = true → w ' ' ≤ w c)
    (s : List Char) :
    ((trimChars (collapseRuns false s)).map w).sum ≤ (s.map w).sum :=
  Nat.le_trans (sum_rdropWhile_le w isSpace _)
    (Nat.le_trans (sum_dropWhile_le w isSpace _) (sum_collapseRuns_le w hw s false))

theorem utf8ByteSize_go_eq (l : List Char) : String.utf8ByteSize.go l = byteLen l := by
  induction l with
  | nil => rfl
  | cons c cs ih =>
    show String.utf8ByteSize.go cs + c.utf8Size = byteLen (c :: cs)
    rw [ih, byteLen, byteLen, List.map_cons, List.sum_cons, Nat.add_comm]

theorem utf8ByteSize_eq (s : String) : s.utf8ByteSize = byteLen s.data := by
  cases s
  exact utf8ByteSize_go_eq _

theorem length_eq_sum (l : List Char) : l.length = (l.map (fun _ => 1)).sum := by
  induction l with
  | nil => rfl
  | cons c cs ih =>
    rw [List.length_cons, List.map_cons, List.sum_cons, ← ih, Nat.add_comm]

/-- C20: the normalisation only touches white space.  For every string `s`, the
characters of `cleanupWhitespace s` that are not white space (`unicode.IsSpace`) are
those of `s`: the same characters, in the same order, as often.  The length of
`cleanupWhitespace s` never exceeds the length of `s`, counted in characters and
counted in bytes as Go's `len` does. -/
theorem C20_only_whitespace_touched (s : String) :
    (cleanupWhitespace s).data.filter (fun c => !isSpace c)
      = s.data.filter (fun c => !isSpace c) ∧
    (cleanupWhitespace s).length ≤ s.length ∧
    (cleanupWhitespace s).utf8ByteSize ≤ s.utf8ByteSize := by
  refine ⟨?_, ?_, ?_⟩
  · rw [cleanupWhitespace_data, filter_trimChars, filter_collapseRuns]
  · show (cleanupWhitespace s).data.length ≤ s.data.length
    rw [cleanupWhitespace_data, length_eq_sum, length_eq_sum s.data]
    exact sum_cleanup_le _ (fun _ _ => Nat.le_refl _) s.data
  · rw [utf8ByteSize_eq, utf8ByteSize_eq, cleanupWhitespace_data]
    refine sum_cleanup_le Char.utf8Size (fun c hc => ?_) s.data
    rcases (isReSpace_iff c).1 hc with h | h | h | h <;> subst h <;> decide

/-- C11, at the stack `[A, B]`, where `B` becomes the child of `A`, and at the stack
`[A]`, where `A` becomes the root. -/
theorem C11_close_links_witness :
    step ⟨⟨[.mk "A" [] "t" [], .mk "B" [] "" []]⟩, none, []⟩ (.EndElement "B")
      = .ok ⟨⟨[.mk "A" [] "t" [.mk "B" [] "" []]]⟩, none, []⟩ ∧
    step ⟨⟨[.mk "A" [] "t" []]⟩, none, []⟩ (.EndElement "A")
      = .ok ⟨⟨[]⟩, some (.mk "A" [] "t" []), []⟩ :=
  ⟨(C11_close_links ⟨⟨[.mk "A" [] "t" [], .mk "B" [] "" []]⟩, none, []⟩ "B"
      (by simp)).2.1 (by simp),
    (C11_close_links ⟨⟨[.mk "A" [] "t" []]⟩, none, []⟩ "A" (by simp)).1 rfl⟩

/-- C17, at the raw text ` a`, two newlines, `b ` inside an element `A`. -/
theorem C17_trim_then_normalise_witness :
    run [.StartElement "A" [], .CharData " a\n\nb ", .EndElement "A"]
      = .ok ⟨⟨[]⟩, some (.mk "A" [] "a\n\nb" []), []⟩ ∧
    cleanupWhitespace (TrimSpace " a\n\nb ") = cleanupWhitespace " a\n\nb " ∧
    (TrimSpace " a\n\nb " = "" ↔ cleanupWhitespace " a\n\nb " = "") ∧
    StateOK ⟨⟨[]⟩, some (.mk "A" [] "a\n\nb" []), []⟩ :=
  ⟨rfl, C17_trim_then_normalise " a\n\nb "
    [.StartElement "A" [], .CharData " a\n\nb ", .EndElement "A"]
    ⟨⟨[]⟩, some (.mk "A" [] "a\n\nb" []), []⟩ rfl⟩

/-- C19, at `Open(A) Close Open(B) Close`: the final tree is `B`, the stack is empty. -/
theorem C19_last_top_level_wins_witness :
    WellFormedList [.mk "A" [] "" [], .mk "B" [] "" []] ∧
    run [.StartElement "A" [], .EndElement "A", .StartElement "B" [], .EndElement "B"]
      = .ok ⟨⟨[]⟩, some (.mk "B" [] "" []), []⟩ :=
  have hwf : WellFormedList [.mk "A" [] "" [], .mk "B" [] "" []] := by
    simp [WellFormed, WellFormedList]
  ⟨hwf, (C19_last_top_level_wins _ hwf).1⟩

end GenJson
